import Mathlib

/-!
Verification of the tl2cgen compiler pipeline (dmlc/tl2cgen) against its
natural-language design specification.

The development shallowly embeds the relevant C++ code:
machine floating-point values are modelled by a tagged type over the
rationals (`FloatVal`), machine integers by `Int`/`Nat` (the quantities
involved -- node counts, feature indices, visit counts -- never approach
the 32/64-bit overflow boundaries in the modelled code paths), and
fallible code by `Except`/`Option`.
-/

namespace TLV

/-! ## Compiler parameters (src/compiler/compiler_param.cc) -/

/-- JSON values as seen through the rapidjson accessors used by
`CompilerParam::ParseFromJSON`: `jstr` is a value for which `IsString()`
holds, `jint` a number for which `IsInt()` holds (a 32-bit signed
integer), `jobj` an object, and `jother` any other JSON value
(doubles, 64-bit integers, arrays, booleans, null). -/
inductive JValue where
  | jstr (s : String)
  | jint (n : Int)
  | jobj (members : List (String × JValue))
  | jother

/-- The five compiler-parameter fields read by the AST compiler
(include/tl2cgen/compiler_param.h). -/
structure CompilerParam where
  annotate_in : String
  quantize : Int
  parallel_comp : Int
  verbose : Int
  native_lib_name : String
deriving DecidableEq

/-- Default values of the compiler parameters, as assigned in the
"Default values" block of `CompilerParam::ParseFromJSON`
(src/compiler/compiler.cc, lines 34-38). -/
def defaultParam : CompilerParam :=
  { annotate_in := "NULL"
    quantize := 0
    parallel_comp := 0
    verbose := 0
    native_lib_name := "predictor" }

/-- Processing of a single JSON object member by the key-dispatch chain in
`CompilerParam::ParseFromJSON` (src/compiler/compiler_param.cc, lines 21-42).
A `TL2CGEN_CHECK` failure or `TL2CGEN_LOG(FATAL)` is modelled as
`Except.error` carrying the message. -/
def parseEntry (p : CompilerParam) (key : String) (v : JValue) :
    Except String CompilerParam :=
  if key = "annotate_in" then
    match v with
    | JValue.jstr s => Except.ok { p with annotate_in := s }
    | _ => Except.error "Expected a string for annotate_in"
  else if key = "quantize" then
    match v with
    | JValue.jint n =>
        if 0 ≤ n then Except.ok { p with quantize := n }
        else Except.error "quantize must be 0 or greater"
    | _ => Except.error "Expected an integer for quantize"
  else if key = "parallel_comp" then
    match v with
    | JValue.jint n =>
        if 0 ≤ n then Except.ok { p with parallel_comp := n }
        else Except.error "parallel_comp must be 0 or greater"
    | _ => Except.error "Expected an integer for parallel_comp"
  else if key = "verbose" then
    match v with
    | JValue.jint n => Except.ok { p with verbose := n }
    | _ => Except.error "Expected an integer for verbose"
  else if key = "native_lib_name" then
    match v with
    | JValue.jstr s => Except.ok { p with native_lib_name := s }
    | _ => Except.error "Expected a string for native_lib_name"
  else Except.error "Unrecognized key in JSON"

/-- The member loop of `CompilerParam::ParseFromJSON`: members are visited
in document order and the first failing check aborts the parse. -/
def parseMembers : CompilerParam → List (String × JValue) → Except String CompilerParam
  | p, [] => Except.ok p
  | p, (k, v) :: rest =>
    match parseEntry p k v with
    | Except.ok p2 => parseMembers p2 rest
    | Except.error e => Except.error e

/-- `CompilerParam::ParseFromJSON` (src/compiler/compiler_param.cc):
requires the document to be a JSON object, then folds the member-dispatch
loop over its members, starting from the default parameter values. -/
def ParseFromJSON (doc : JValue) : Except String CompilerParam :=
  match doc with
  | JValue.jobj ms => parseMembers defaultParam ms
  | _ => Except.error "Got an invalid JSON string"

/-- A single JSON object member that the parser accepts: a recognized key
with the declared type and (for `quantize` / `parallel_comp`) a
non-negative value. -/
def validEntry : String × JValue → Bool
  | (k, JValue.jstr _) => k = "annotate_in" ∨ k = "native_lib_name"
  | (k, JValue.jint n) =>
      (k = "quantize" ∧ 0 ≤ n) ∨ (k = "parallel_comp" ∧ 0 ≤ n) ∨ k = "verbose"
  | (_, _) => false

theorem parseEntry_ok_iff (p : CompilerParam) (k : String) (v : JValue) :
    (∃ q, parseEntry p k v = Except.ok q) ↔ validEntry (k, v) = true := by
  cases v <;> simp only [parseEntry, validEntry] <;> split_ifs <;>
    simp_all [decide_eq_true_eq]

theorem parseMembers_ok_iff (ms : List (String × JValue)) :
    ∀ p, (∃ q, parseMembers p ms = Except.ok q) ↔ ∀ e ∈ ms, validEntry e = true := by
  induction ms with
  | nil => intro p; simp [parseMembers]
  | cons e rest ih =>
    intro p
    obtain ⟨k, v⟩ := e
    constructor
    · rintro ⟨q, hq⟩
      simp only [parseMembers] at hq
      rcases h : parseEntry p k v with e' | p2
      · rw [h] at hq; cases hq
      · rw [h] at hq
        intro x hx
        rcases List.mem_cons.mp hx with rfl | hx'
        · exact (parseEntry_ok_iff p k v).mp ⟨p2, h⟩
        · exact ((ih p2).mp ⟨q, hq⟩) x hx'
    · intro hall
      obtain ⟨p2, h2⟩ := (parseEntry_ok_iff p k v).mpr (hall _ (List.mem_cons_self _ _))
      obtain ⟨q, hq⟩ := (ih p2).mpr (fun x hx => hall x (List.mem_cons_of_mem _ hx))
      exact ⟨q, by simp only [parseMembers, h2]; exact hq⟩

theorem parseEntry_preserves (p q : CompilerParam) (k : String) (v : JValue)
    (h : parseEntry p k v = Except.ok q) :
    (k ≠ "annotate_in" → q.annotate_in = p.annotate_in)
    ∧ (k ≠ "quantize" → q.quantize = p.quantize)
    ∧ (k ≠ "parallel_comp" → q.parallel_comp = p.parallel_comp)
    ∧ (k ≠ "verbose" → q.verbose = p.verbose)
    ∧ (k ≠ "native_lib_name" → q.native_lib_name = p.native_lib_name) := by
  cases v <;> simp only [parseEntry] at h <;> split_ifs at h <;>
    cases h <;> simp_all

theorem parseMembers_preserves (ms : List (String × JValue)) :
    ∀ p q, parseMembers p ms = Except.ok q →
      ("annotate_in" ∉ ms.map Prod.fst → q.annotate_in = p.annotate_in)
      ∧ ("quantize" ∉ ms.map Prod.fst → q.quantize = p.quantize)
      ∧ ("parallel_comp" ∉ ms.map Prod.fst → q.parallel_comp = p.parallel_comp)
      ∧ ("verbose" ∉ ms.map Prod.fst → q.verbose = p.verbose)
      ∧ ("native_lib_name" ∉ ms.map Prod.fst → q.native_lib_name = p.native_lib_name) := by
  induction ms with
  | nil =>
    intro p q h
    simp only [parseMembers] at h
    injection h with h
    subst h
    simp
  | cons e rest ih =>
    intro p q h
    obtain ⟨k, v⟩ := e
    simp only [parseMembers] at h
    rcases h2 : parseEntry p k v with e' | p2
    · rw [h2] at h; cases h
    · rw [h2] at h
      have hpres := parseEntry_preserves p p2 k v h2
      have hrest := ih p2 q h
      refine ⟨?_, ?_, ?_, ?_, ?_⟩ <;> intro h3 <;>
        simp only [List.map_cons, List.mem_cons, not_or] at h3
      · exact (hrest.1 h3.2).trans (hpres.1 fun he => h3.1 he.symm)
      · exact (hrest.2.1 h3.2).trans (hpres.2.1 fun he => h3.1 he.symm)
      · exact (hrest.2.2.1 h3.2).trans (hpres.2.2.1 fun he => h3.1 he.symm)
      · exact (hrest.2.2.2.1 h3.2).trans (hpres.2.2.2.1 fun he => h3.1 he.symm)
      · exact (hrest.2.2.2.2 h3.2).trans (hpres.2.2.2.2 fun he => h3.1 he.symm)

/-- C8: `CompilerParam::ParseFromJSON` succeeds exactly on JSON objects whose
members all have a recognized key (`annotate_in`, `quantize`, `parallel_comp`,
`verbose`, `native_lib_name`) with the declared type and, for `quantize` and
`parallel_comp`, a non-negative value; any non-object input, unknown key, type
mismatch or negative range fails with an error; keys that are omitted keep the
defaults `annotate_in = "NULL"`, `quantize = 0`, `parallel_comp = 0`,
`verbose = 0`, `native_lib_name = "predictor"`. -/
theorem c8_compiler_param_parse (doc : JValue) :
    ((∃ p, ParseFromJSON doc = Except.ok p) ↔
      ∃ ms, doc = JValue.jobj ms ∧ ∀ e ∈ ms, validEntry e = true)
    ∧ (∀ ms p, doc = JValue.jobj ms → ParseFromJSON doc = Except.ok p →
        ("annotate_in" ∉ ms.map Prod.fst → p.annotate_in = "NULL")
        ∧ ("quantize" ∉ ms.map Prod.fst → p.quantize = 0)
        ∧ ("parallel_comp" ∉ ms.map Prod.fst → p.parallel_comp = 0)
        ∧ ("verbose" ∉ ms.map Prod.fst → p.verbose = 0)
        ∧ ("native_lib_name" ∉ ms.map Prod.fst → p.native_lib_name = "predictor")) := by
  constructor
  · constructor
    · rintro ⟨p, hp⟩
      cases doc <;> simp only [ParseFromJSON] at hp <;> try cases hp
      next ms => exact ⟨ms, rfl, (parseMembers_ok_iff ms defaultParam).mp ⟨p, hp⟩⟩
    · rintro ⟨ms, rfl, hall⟩
      exact (parseMembers_ok_iff ms defaultParam).mpr hall
  · rintro ms p rfl hp
    exact parseMembers_preserves ms defaultParam p hp

/-- Witness for C8 at a concrete document: parsing
`{"quantize": 1, "native_lib_name": "mylib"}` succeeds, and the resulting
parameters keep the defaults for the omitted keys. -/
theorem c8_compiler_param_parse_witness :
    (∃ p, ParseFromJSON (JValue.jobj
        [("quantize", JValue.jint 1), ("native_lib_name", JValue.jstr "mylib")])
      = Except.ok p)
    ∧ ∀ p, ParseFromJSON (JValue.jobj
        [("quantize", JValue.jint 1), ("native_lib_name", JValue.jstr "mylib")])
          = Except.ok p →
        p.annotate_in = "NULL" ∧ p.parallel_comp = 0 ∧ p.verbose = 0 := by
  constructor
  · exact (c8_compiler_param_parse _).1.mpr
      ⟨_, rfl, by intro e he; fin_cases he <;> rfl⟩
  · intro p hp
    have h := (c8_compiler_param_parse _).2 _ p rfl hp
    exact ⟨h.1 (by simp), h.2.2.1 (by simp), h.2.2.2.1 (by simp)⟩

/-! ## Branch-annotator persistence (src/annotator.cc) -/

/-- JSON documents as produced and consumed by `BranchAnnotator::Save` and
`BranchAnnotator::Load`: arrays, unsigned 64-bit integers, and any other
JSON value (`jother`). -/
inductive JNode where
  | jarr (elems : List JNode)
  | jnum (v : Nat)
  | jother

/-- `BranchAnnotator::Save` (src/annotator.cc, lines 245-258): the counts
tensor is written as a JSON array of arrays of unsigned 64-bit integers, in
tree order and then node order. -/
def saveCounts (counts : List (List Nat)) : JNode :=
  JNode.jarr (counts.map (fun nodeCnt => JNode.jarr (nodeCnt.map JNode.jnum)))

/-- Reading one element of a per-tree array in `BranchAnnotator::Load`:
`e.GetUint64()` requires a number (a non-number trips a rapidjson
assertion, modelled as an error). -/
def loadElem : JNode → Except String Nat
  | JNode.jnum v => Except.ok v
  | _ => Except.error "GetUint64 expects an unsigned integer"

/-- The inner element loop of `BranchAnnotator::Load`. -/
def loadElems : List JNode → Except String (List Nat)
  | [] => Except.ok []
  | e :: rest =>
    match loadElem e with
    | Except.error msg => Except.error msg
    | Except.ok v =>
      match loadElems rest with
      | Except.error msg => Except.error msg
      | Except.ok vs => Except.ok (v :: vs)

/-- One per-tree entry of `BranchAnnotator::Load`: each entry of the outer
array must itself be an array. -/
def loadRow : JNode → Except String (List Nat)
  | JNode.jarr es => loadElems es
  | _ => Except.error "JSON file must contain a list of lists of integers"

/-- The outer loop of `BranchAnnotator::Load`. -/
def loadRows : List JNode → Except String (List (List Nat))
  | [] => Except.ok []
  | r :: rest =>
    match loadRow r with
    | Except.error msg => Except.error msg
    | Except.ok row =>
      match loadRows rest with
      | Except.error msg => Except.error msg
      | Except.ok rows => Except.ok (row :: rows)

/-- `BranchAnnotator::Load` (src/annotator.cc, lines 227-243): the document
must be an array, each entry must be an array, and each element is read with
`GetUint64()`. -/
def loadCounts : JNode → Except String (List (List Nat))
  | JNode.jarr rows => loadRows rows
  | _ => Except.error "JSON file must contain a list of lists of integers"

theorem loadElems_map_jnum (row : List Nat) :
    loadElems (row.map JNode.jnum) = Except.ok row := by
  induction row with
  | nil => rfl
  | cons v rest ih => simp [loadElems, loadElem, ih]

theorem loadRows_map (counts : List (List Nat)) :
    loadRows (counts.map (fun nodeCnt => JNode.jarr (nodeCnt.map JNode.jnum)))
      = Except.ok counts := by
  induction counts with
  | nil => rfl
  | cons row rest ih => simp [loadRows, loadRow, loadElems_map_jnum, ih]

/-- C7: `BranchAnnotator::Save` followed by `BranchAnnotator::Load` restores
the counts tensor exactly: serialization is a JSON array of arrays of
unsigned 64-bit integers in tree order then node order, and loading it back
is the identity on counts values. -/
theorem c7_save_load_roundtrip (counts : List (List Nat)) :
    loadCounts (saveCounts counts) = Except.ok counts := by
  simp [saveCounts, loadCounts, loadRows_map]

/-! ## Average-factor derivation (src/compiler/ast/build.cc, ComputeAverageFactor) -/

/-- `*std::max_element(num_class.Data(), ...)`: the largest class count over
all targets (the class counts are positive, so folding `max` from 0
computes the maximum of the nonempty list). -/
def maxElem (l : List Nat) : Nat := l.foldl max 0

/-- `average_factor[i] += 1` on a vector of 32-bit counters (overflow is
unreachable for realistic tree counts). -/
def incAt (a : List Int) (i : Nat) : List Int := a.set i (a.getD i 0 + 1)

/-- The sequence of array indices incremented by `ComputeAverageFactor`
(src/compiler/ast/build.cc, lines 30-49) for one tree, in loop order:
a tree with non-negative `target_id`/`class_id` touches the single cell
`(target_id, class_id)`; a negative `target_id` fans out over all targets;
a negative `class_id` fans out over the classes of the target. -/
def treeIdxList (nt : Nat) (nc : List Nat) (maxC : Nat) (tc : Int × Int) : List Nat :=
  if tc.1 < 0 ∧ tc.2 < 0 then
    (List.range nt).flatMap
      (fun tgt => (List.range (nc.getD tgt 0)).map (fun cls => tgt * maxC + cls))
  else if tc.1 < 0 then
    (List.range nt).map (fun tgt => tgt * maxC + tc.2.toNat)
  else if tc.2 < 0 then
    (List.range (nc.getD tc.1.toNat 0)).map (fun cls => tc.1.toNat * maxC + cls)
  else
    [tc.1.toNat * maxC + tc.2.toNat]

/-- The model data consumed by `ComputeAverageFactor`: per-tree
`target_id` / `class_id` assignments (−1 meaning "all"), the number of
targets, the per-target class counts, and the averaging flag. -/
structure AvgModel where
  num_target : Nat
  num_class : List Nat
  trees : List (Int × Int)
  average_tree_output : Bool

/-- `ComputeAverageFactor` (src/compiler/ast/build.cc, lines 21-53):
`std::nullopt` when `average_tree_output` is false; otherwise a
`num_target * max_num_class` vector of zeros incremented once per tree at
each index of that tree's fan-out. -/
def ComputeAverageFactor (m : AvgModel) : Option (List Int) :=
  if m.average_tree_output then
    some (m.trees.foldl
      (fun acc tc =>
        (treeIdxList m.num_target m.num_class (maxElem m.num_class) tc).foldl incAt acc)
      (List.replicate (m.num_target * maxElem m.num_class) 0))
  else none

theorem le_maxElem (l : List Nat) (x : Nat) (hx : x ∈ l) : x ≤ maxElem l := by
  have h : ∀ (l : List Nat) (a : Nat), a ≤ l.foldl max a ∧ ∀ x ∈ l, x ≤ l.foldl max a := by
    intro l
    induction l with
    | nil => intro a; exact ⟨le_refl a, by simp⟩
    | cons y t ih =>
      intro a
      refine ⟨le_trans (le_max_left a y) (ih (max a y)).1, ?_⟩
      intro x hx
      rcases List.mem_cons.mp hx with rfl | hx'
      · exact le_trans (le_max_right a x) (ih (max a x)).1
      · exact (ih (max a y)).2 x hx'
  exact (h l 0).2 x hx

theorem length_incAt (a : List Int) (i : Nat) : (incAt a i).length = a.length := by
  simp [incAt]

theorem getD_set_general (a : List Int) :
    ∀ (i j : Nat) (v : Int), j < a.length →
      (a.set i v).getD j 0 = if i = j then v else a.getD j 0 := by
  induction a with
  | nil => intro i j v h; simp at h
  | cons x t ih =>
    intro i j v h
    cases i with
    | zero =>
      cases j with
      | zero => simp
      | succ j2 => simp [List.set]
    | succ i2 =>
      cases j with
      | zero => simp [List.set]
      | succ j2 =>
        simp only [List.set, List.getD_cons_succ, add_left_inj]
        exact ih i2 j2 v (by simpa using h)

theorem getD_incAt (a : List Int) (i j : Nat) (h : j < a.length) :
    (incAt a i).getD j 0 = a.getD j 0 + if i = j then 1 else 0 := by
  unfold incAt
  rw [getD_set_general a i j _ h]
  split_ifs with he
  · subst he; ring
  · ring

theorem length_foldl_incAt (L : List Nat) :
    ∀ a : List Int, (L.foldl incAt a).length = a.length := by
  induction L with
  | nil => intro a; rfl
  | cons i L ih => intro a; rw [List.foldl_cons, ih, length_incAt]

theorem getD_foldl_incAt (L : List Nat) :
    ∀ (a : List Int) (j : Nat), j < a.length →
      (L.foldl incAt a).getD j 0 = a.getD j 0 + (L.count j : Int) := by
  induction L with
  | nil => intro a j _; simp
  | cons i L ih =>
    intro a j hj
    rw [List.foldl_cons, ih (incAt a i) j (by rw [length_incAt]; exact hj),
      getD_incAt a i j hj, List.count_cons]
    split_ifs with h1 h2 <;> first | omega | simp_all

theorem encode_inj (M a b a2 b2 : Nat) (hb : b < M) (hb2 : b2 < M)
    (h : a * M + b = a2 * M + b2) : a = a2 ∧ b = b2 := by
  have hM : 0 < M := by omega
  have hmod : b = b2 := by
    have h1 : (a * M + b) % M = b := by
      rw [mul_comm, Nat.mul_add_mod, Nat.mod_eq_of_lt hb]
    have h2 : (a2 * M + b2) % M = b2 := by
      rw [mul_comm, Nat.mul_add_mod, Nat.mod_eq_of_lt hb2]
    rw [← h1, ← h2, h]
  refine ⟨?_, hmod⟩
  subst hmod
  have := Nat.eq_of_mul_eq_mul_right (by omega : 0 < M) (by omega : a * M = a2 * M)
  exact this

theorem getD_le_maxC (nc : List Nat) (maxC : Nat) (hmaxc : ∀ x ∈ nc, x ≤ maxC) (i : Nat) :
    nc.getD i 0 ≤ maxC := by
  by_cases h : i < nc.length
  · rw [List.getD_eq_getElem nc 0 h]
    exact hmaxc _ (List.getElem_mem h)
  · rw [List.getD_eq_default nc 0 (by omega)]
    exact Nat.zero_le maxC

theorem count_class_strip (nc : List Nat) (maxC : Nat) (t c tgt : Nat)
    (hc : c < nc.getD t 0) (hcmax : c < maxC)
    (hmaxc : ∀ x ∈ nc, x ≤ maxC) :
    ((List.range (nc.getD tgt 0)).map (fun cls => tgt * maxC + cls)).count (t * maxC + c)
      = if tgt = t then 1 else 0 := by
  split_ifs with he
  · subst he
    refine List.count_eq_one_of_mem ?_ ?_
    · exact List.Nodup.map (fun a b hab => by omega) (List.nodup_range _)
    · exact List.mem_map.mpr ⟨c, List.mem_range.mpr hc, rfl⟩
  · rw [List.count_eq_zero]
    intro hm
    obtain ⟨cls, hcls, heq⟩ := List.mem_map.mp hm
    have hclsm : cls < maxC :=
      lt_of_lt_of_le (List.mem_range.mp hcls) (getD_le_maxC nc maxC hmaxc tgt)
    exact he (encode_inj maxC tgt cls t c hclsm hcmax heq).1

theorem sum_range_indicator (t : Nat) :
    ∀ n : Nat, ((List.range n).map (fun tgt => if tgt = t then (1 : Nat) else 0)).sum
      = if t < n then 1 else 0 := by
  intro n
  induction n with
  | zero => simp
  | succ n ih =>
    rw [List.range_succ, List.map_append, List.sum_append, ih]
    by_cases h2 : n = t
    · subst h2
      simp
    · by_cases h1 : t < n
      · have h3 : t < n + 1 := by omega
        simp [h1, h2, h3]
      · have h3 : ¬(t < n + 1) := by omega
        simp [h1, h2, h3]

theorem count_target_strip (nt maxC t c k : Nat) (ht : t < nt) (hk : k < maxC)
    (hcmax : c < maxC) :
    ((List.range nt).map (fun tgt => tgt * maxC + k)).count (t * maxC + c)
      = if k = c then 1 else 0 := by
  have hM : 0 < maxC := by omega
  split_ifs with he
  · subst he
    refine List.count_eq_one_of_mem ?_ ?_
    · refine List.Nodup.map (fun a b hab => ?_) (List.nodup_range _)
      have : a * maxC = b * maxC := by omega
      exact Nat.eq_of_mul_eq_mul_right hM this
    · exact List.mem_map.mpr ⟨t, List.mem_range.mpr ht, rfl⟩
  · rw [List.count_eq_zero]
    intro hm
    obtain ⟨tgt, _, heq⟩ := List.mem_map.mp hm
    exact he (encode_inj maxC tgt k t c hk hcmax heq).2

theorem count_treeIdxList (nt : Nat) (nc : List Nat) (maxC : Nat) (tc : Int × Int)
    (t c : Nat) (ht : t < nt) (hc : c < nc.getD t 0) (hcmax : c < maxC)
    (hmaxc : ∀ x ∈ nc, x ≤ maxC)
    (hwf1 : tc.1 = -1 ∨ (0 ≤ tc.1 ∧ tc.1 < (nt : Int)))
    (hwf2 : tc.2 = -1 ∨ (0 ≤ tc.2 ∧ tc.2 < (maxC : Int))) :
    (treeIdxList nt nc maxC tc).count (t * maxC + c)
      = if (tc.1 = (t : Int) ∨ tc.1 = -1) ∧ (tc.2 = (c : Int) ∨ tc.2 = -1)
        then 1 else 0 := by
  unfold treeIdxList
  rcases hwf1 with h1 | h1 <;> rcases hwf2 with h2 | h2
  · -- target_id = -1, class_id = -1: every valid cell is hit exactly once
    rw [if_pos ⟨by omega, by omega⟩, if_pos ⟨Or.inr h1, Or.inr h2⟩]
    rw [List.count_flatMap]
    have hmap : (List.map
        (List.count (t * maxC + c) ∘ fun tgt =>
          (List.range (nc.getD tgt 0)).map (fun cls => tgt * maxC + cls))
        (List.range nt))
        = List.map (fun tgt => if tgt = t then (1 : Nat) else 0) (List.range nt) := by
      refine List.map_congr_left ?_
      intro tgt _
      exact count_class_strip nc maxC t c tgt hc hcmax hmaxc
    rw [hmap, sum_range_indicator t nt, if_pos ht]
  · -- target_id = -1, class_id >= 0: one hit per target at the fixed class
    rw [if_neg (by omega), if_pos (by omega)]
    have hk : tc.2.toNat < maxC := by omega
    rw [count_target_strip nt maxC t c tc.2.toNat ht hk hcmax]
    by_cases hc2 : tc.2 = (c : Int)
    · rw [if_pos (by omega), if_pos ⟨Or.inr h1, Or.inl hc2⟩]
    · rw [if_neg (by omega), if_neg ?_]
      rintro ⟨-, hcc | hcc⟩
      · exact hc2 hcc
      · omega
  · -- target_id >= 0, class_id = -1: one hit per class of the fixed target
    rw [if_neg (by omega), if_neg (by omega), if_pos (by omega)]
    rw [count_class_strip nc maxC t c tc.1.toNat hc hcmax hmaxc]
    by_cases ht2 : tc.1 = (t : Int)
    · rw [if_pos (by omega), if_pos ⟨Or.inl ht2, Or.inr h2⟩]
    · rw [if_neg (by omega), if_neg ?_]
      rintro ⟨htt | htt, -⟩
      · exact ht2 htt
      · omega
  · -- target_id >= 0, class_id >= 0: a single cell is hit
    rw [if_neg (by omega), if_neg (by omega), if_neg (by omega)]
    rw [List.count_singleton]
    have hk : tc.2.toNat < maxC := by omega
    by_cases hsame : tc.1 = (t : Int) ∧ tc.2 = (c : Int)
    · rw [if_pos ?_, if_pos ⟨Or.inl hsame.1, Or.inl hsame.2⟩]
      have : tc.1.toNat = t ∧ tc.2.toNat = c := by omega
      rw [this.1, this.2]
      exact beq_self_eq_true _
    · rw [if_neg ?_, if_neg ?_]
      · rintro ⟨htt | htt, hcc | hcc⟩ <;> [exact hsame ⟨htt, hcc⟩; omega; omega; omega]
      · intro hbeq
        have heq : tc.1.toNat * maxC + tc.2.toNat = t * maxC + c := by
          exact beq_iff_eq.mp hbeq
        have := encode_inj maxC tc.1.toNat tc.2.toNat t c hk hcmax heq
        exact hsame ⟨by omega, by omega⟩

theorem getD_trees_foldl (f : Int × Int → List Nat) (ts : List (Int × Int)) :
    ∀ (a : List Int) (j : Nat), j < a.length →
      (ts.foldl (fun acc tc => (f tc).foldl incAt acc) a).getD j 0
        = a.getD j 0 + ((ts.map (fun tc => ((f tc).count j : Int))).sum) := by
  induction ts with
  | nil => intro a j _; simp
  | cons tc ts ih =>
    intro a j hj
    rw [List.foldl_cons, ih ((f tc).foldl incAt a) j
        (by rw [length_foldl_incAt]; exact hj),
      getD_foldl_incAt (f tc) a j hj, List.map_cons, List.sum_cons]
    ring

theorem length_trees_foldl (f : Int × Int → List Nat) (ts : List (Int × Int)) :
    ∀ a : List Int, (ts.foldl (fun acc tc => (f tc).foldl incAt acc) a).length = a.length := by
  induction ts with
  | nil => intro a; rfl
  | cons tc ts ih => intro a; rw [List.foldl_cons, ih, length_foldl_incAt]

theorem sum_map_ite_eq_countP (p : Int × Int → Prop) [DecidablePred p]
    (ts : List (Int × Int)) :
    ((ts.map (fun tc => if p tc then (1 : Int) else 0)).sum)
      = (ts.countP (fun tc => decide (p tc)) : Int) := by
  induction ts with
  | nil => simp
  | cons tc ts ih =>
    rw [List.map_cons, List.sum_cons, ih, List.countP_cons]
    by_cases h : p tc
    · simp [h]
      ring
    · simp [h]

theorem getD_replicate_zero : ∀ (n j : Nat), (List.replicate n (0 : Int)).getD j 0 = 0 := by
  intro n
  induction n with
  | zero => intro j; simp
  | succ n ih =>
    intro j
    cases j with
    | zero => simp [List.replicate]
    | succ j2 => simp only [List.replicate, List.getD_cons_succ]; exact ih j2

/-- C5: when `average_tree_output` is true, the derived `average_factor`
satisfies `average_factor[t * max_num_class + c]` = number of trees whose
`target_id` is `t` or −1 and whose `class_id` is `c` or −1, for every valid
cell `(t, c)` with `c < num_class[t]`; when `average_tree_output` is false,
`average_factor` is absent. The well-formedness hypotheses mirror the
treelite model invariants: `target_id` is −1 or a valid target, `class_id`
is −1 or smaller than `max_num_class`. -/
theorem c5_average_factor (m : AvgModel) (t c : Nat)
    (ht : t < m.num_target) (hc : c < m.num_class.getD t 0)
    (hmaxc : ∀ x ∈ m.num_class, x ≤ maxElem m.num_class)
    (hwf : ∀ tc ∈ m.trees,
      (tc.1 = -1 ∨ (0 ≤ tc.1 ∧ tc.1 < (m.num_target : Int)))
      ∧ (tc.2 = -1 ∨ (0 ≤ tc.2 ∧ tc.2 < (maxElem m.num_class : Int)))) :
    (m.average_tree_output = true →
      ∃ af, ComputeAverageFactor m = some af
        ∧ af.getD (t * maxElem m.num_class + c) 0
          = (m.trees.countP (fun tc =>
              decide ((tc.1 = (t : Int) ∨ tc.1 = -1)
                ∧ (tc.2 = (c : Int) ∨ tc.2 = -1))) : Int))
    ∧ (m.average_tree_output = false → ComputeAverageFactor m = none) := by
  set maxC := maxElem m.num_class with hmaxdef
  have hcmax : c < maxC := by
    refine lt_of_lt_of_le hc ?_
    exact getD_le_maxC m.num_class maxC hmaxc t
  have hjlt : t * maxC + c < m.num_target * maxC := by
    have h1 : t * maxC + c < (t + 1) * maxC := by
      rw [add_mul, one_mul]
      omega
    have h2 : (t + 1) * maxC ≤ m.num_target * maxC :=
      Nat.mul_le_mul_right maxC (by omega)
    omega
  constructor
  · intro havg
    unfold ComputeAverageFactor
    rw [havg, if_pos rfl]
    refine ⟨_, rfl, ?_⟩
    rw [getD_trees_foldl _ m.trees _ _ (by simpa using hjlt),
      getD_replicate_zero, zero_add]
    have hmap : m.trees.map
        (fun tc => ((treeIdxList m.num_target m.num_class maxC tc).count
          (t * maxC + c) : Int))
        = m.trees.map (fun tc =>
            if (tc.1 = (t : Int) ∨ tc.1 = -1) ∧ (tc.2 = (c : Int) ∨ tc.2 = -1)
            then (1 : Int) else 0) := by
      refine List.map_congr_left ?_
      intro tc htc
      rw [count_treeIdxList m.num_target m.num_class maxC tc t c ht hc hcmax hmaxc
        (hwf tc htc).1 (hwf tc htc).2]
      split_ifs <;> simp
    rw [hmap, sum_map_ite_eq_countP]
  · intro havg
    unfold ComputeAverageFactor
    rw [havg]
    simp

/-- Witness for C5 at a concrete model: two targets with class counts
`[2, 1]` and four trees `(0,0)`, `(−1,−1)`, `(1,−1)`, `(−1,0)`; cell
`(0,0)` is fed by the three trees `(0,0)`, `(−1,−1)`, `(−1,0)`. -/
theorem c5_average_factor_witness :
    ∃ af, ComputeAverageFactor
        { num_target := 2, num_class := [2, 1],
          trees := [(0, 0), (-1, -1), (1, -1), (-1, 0)],
          average_tree_output := true } = some af
      ∧ af.getD (0 * maxElem [2, 1] + 0) 0
        = ([((0 : Int), (0 : Int)), (-1, -1), (1, -1), (-1, 0)].countP (fun tc =>
            decide ((tc.1 = ((0 : Nat) : Int) ∨ tc.1 = -1)
              ∧ (tc.2 = ((0 : Nat) : Int) ∨ tc.2 = -1))) : Int) :=
  (c5_average_factor
    { num_target := 2, num_class := [2, 1],
      trees := [(0, 0), (-1, -1), (1, -1), (-1, 0)],
      average_tree_output := true } 0 0
    (by decide) (by decide) (by decide) (by decide)).1 rfl

/-! ## The compiler AST (include/tl2cgen/detail/compiler/ast/ast.h)

The C++ AST is a heap of `ASTNode` subclasses with untyped child vectors;
in every tree built by `ASTBuilder` the arities are fixed (Main, Quantizer
and TranslationUnit have one child, Condition nodes have two, Output nodes
none, Function nodes any number), so the embedding bakes the arities into
the constructors. -/

/-- IEEE-754 values as consumed by the pipeline: NaN, the two infinities
and finite values. Finite values are modelled by rationals: every finite
float is a rational, and the modelled code uses only ordering, equality
and finiteness tests on them. -/
inductive FloatVal where
  | nan
  | negInf
  | posInf
  | finite (q : Rat)
deriving DecidableEq

/-- `std::isfinite`. -/
def FloatVal.isFinite : FloatVal → Bool
  | FloatVal.finite _ => true
  | _ => false

/-- `treelite::Operator`: the five comparison operators. -/
inductive CmpOp where
  | opEq | opLT | opLE | opGT | opGE
deriving DecidableEq

mutual

inductive ASTNode where
  | main (child : ASTNode)
  | quant (thresholdList : List (List Rat)) (child : ASTNode)
  | func (children : ASTList)
  | tu (unitId : Int) (child : ASTNode)
  | numCond (splitIndex : Nat) (defaultLeft : Bool) (op : CmpOp) (threshold : FloatVal)
      (quantizedThreshold : Option Int) (zeroQuantized : Int) (left right : ASTNode)
  | catCond (splitIndex : Nat) (defaultLeft : Bool) (categoryList : List Nat)
      (rightChildFlag : Bool) (left right : ASTNode)
  | output (targetId classId : Int) (leafOutput : List Rat)

inductive ASTList where
  | nil
  | cons (head : ASTNode) (tail : ASTList)

end

/-- The child list of a `FunctionNode`, as an ordinary list. -/
def ASTList.toList : ASTList → List ASTNode
  | ASTList.nil => []
  | ASTList.cons h t => h :: t.toList

/-- Inverse of `ASTList.toList`. -/
def ASTList.ofList : List ASTNode → ASTList
  | [] => ASTList.nil
  | h :: t => ASTList.cons h (ASTList.ofList t)

theorem ASTList.toList_ofList (l : List ASTNode) : (ASTList.ofList l).toList = l := by
  induction l with
  | nil => rfl
  | cons h t ih => simp [ASTList.ofList, ASTList.toList, ih]

/-! ## split_into_tus (src/compiler/ast/split.cc) -/

/-- `dynamic_cast<ConditionNode*>(node) || dynamic_cast<OutputNode*>(node)`:
the check applied to each direct child of the top Function node. -/
def isTreeHead : ASTNode → Bool
  | ASTNode.numCond _ _ _ _ _ _ _ _ => true
  | ASTNode.catCond _ _ _ _ _ _ => true
  | ASTNode.output _ _ _ => true
  | _ => false

mutual

/-- `CountTUNodes` (src/compiler/ast/split.cc, lines 16-22). -/
def countTUNodes : ASTNode → Nat
  | ASTNode.main c => countTUNodes c
  | ASTNode.quant _ c => countTUNodes c
  | ASTNode.func ch => countTUList ch
  | ASTNode.tu _ c => 1 + countTUNodes c
  | ASTNode.numCond _ _ _ _ _ _ l r => countTUNodes l + countTUNodes r
  | ASTNode.catCond _ _ _ _ l r => countTUNodes l + countTUNodes r
  | ASTNode.output _ _ _ => 0

def countTUList : ASTList → Nat
  | ASTList.nil => 0
  | ASTList.cons h t => countTUNodes h + countTUList t

end

/-- `ASTBuilder::SplitIntoTUs` (src/compiler/ast/split.cc, lines 28-71).
`num_tu ≤ 0` is a no-op; otherwise the direct children of the top Function
node (each checked to be a Condition or Output head) are partitioned into
`ceil(ntree/num_tu)`-sized contiguous groups, each wrapped in a
TranslationUnit holding a fresh Function. A failed `TL2CGEN_CHECK` is
modelled as `none`. -/
def SplitIntoTUs (numTU : Int) (ast : ASTNode) : Option ASTNode :=
  if numTU ≤ 0 then some ast
  else
    match ast with
    | ASTNode.main (ASTNode.func children) =>
      let treeHead := children.toList
      if treeHead.all isTreeHead then
        let ntree := treeHead.length
        let unitSize := (ntree + numTU.toNat - 1) / numTU.toNat
        let currentNumTU := countTUNodes (ASTNode.main (ASTNode.func children))
        let tuList := (List.range numTU.toNat).filterMap (fun unitId =>
          let treeBegin := unitId * unitSize
          let treeEnd := min ((unitId + 1) * unitSize) ntree
          if treeBegin < treeEnd then
            some (ASTNode.tu ((currentNumTU + unitId : Nat) : Int)
              (ASTNode.func (ASTList.ofList
                ((treeHead.drop treeBegin).take (treeEnd - treeBegin)))))
          else none)
        some (ASTNode.main (ASTNode.func (ASTList.ofList tuList)))
      else none
    | _ => none

/-- The per-tree subtrees held by a TranslationUnit node. -/
def tuTrees : ASTNode → List ASTNode
  | ASTNode.tu _ (ASTNode.func g) => g.toList
  | _ => []

theorem flatMap_tuChunks (l : List ASTNode) (d cnum : Nat) :
    ∀ m : Nat,
      (((List.range m).filterMap (fun u =>
          if u * d < min ((u + 1) * d) l.length then
            some (ASTNode.tu ((cnum + u : Nat) : Int)
              (ASTNode.func (ASTList.ofList
                ((l.drop (u * d)).take (min ((u + 1) * d) l.length - u * d)))))
          else none)).flatMap tuTrees)
        = l.take (m * d) := by
  intro m
  induction m with
  | zero => simp
  | succ m ih =>
    rw [List.range_succ, List.filterMap_append, List.flatMap_append, ih]
    have hsucc : (m + 1) * d = m * d + d := by ring
    by_cases hlt : m * d < min ((m + 1) * d) l.length
    · have hslice : List.filterMap (fun u =>
          if u * d < min ((u + 1) * d) l.length then
            some (ASTNode.tu ((cnum + u : Nat) : Int)
              (ASTNode.func (ASTList.ofList
                ((l.drop (u * d)).take (min ((u + 1) * d) l.length - u * d)))))
          else none) [m]
          = [ASTNode.tu ((cnum + m : Nat) : Int)
              (ASTNode.func (ASTList.ofList
                ((l.drop (m * d)).take (min ((m + 1) * d) l.length - m * d))))] := by
        simp only [List.filterMap_cons, List.filterMap_nil]
        rw [if_pos hlt]
      rw [hslice]
      simp only [List.flatMap_cons, List.flatMap_nil, List.append_nil, tuTrees,
        ASTList.toList_ofList]
      rw [hsucc, List.take_add]
      congr 1
      by_cases hlen : (m + 1) * d ≤ l.length
      · rw [min_eq_left (show m * d + d ≤ l.length by omega)]
        congr 1
        omega
      · rw [min_eq_right (by omega)]
        have h1 : (l.drop (m * d)).length = l.length - m * d := List.length_drop _ _
        rw [List.take_of_length_le (by omega), List.take_of_length_le (by omega)]
    · have hnone : List.filterMap (fun u =>
          if u * d < min ((u + 1) * d) l.length then
            some (ASTNode.tu ((cnum + u : Nat) : Int)
              (ASTNode.func (ASTList.ofList
                ((l.drop (u * d)).take (min ((u + 1) * d) l.length - u * d)))))
          else none) [m] = [] := by
        simp only [List.filterMap_cons, List.filterMap_nil]
        rw [if_neg hlt]
      rw [hnone]
      simp only [List.flatMap_nil, List.append_nil]
      rcases Nat.eq_zero_or_pos d with rfl | hd
      · simp
      · have hge : l.length ≤ m * d := by omega
        rw [List.take_of_length_le hge, List.take_of_length_le (by omega)]

theorem ceil_mul_ge (len nt : Nat) (hnt : 0 < nt) :
    len ≤ nt * ((len + nt - 1) / nt) := by
  rcases Nat.eq_zero_or_pos len with rfl | hlen
  · simp
  · have h1 : nt * ((len + nt - 1) / nt) + (len + nt - 1) % nt = len + nt - 1 :=
      Nat.div_add_mod _ _
    have h2 : (len + nt - 1) % nt < nt := Nat.mod_lt _ hnt
    omega

theorem length_le_sum_map {α : Type} (l : List α) (f : α → Nat)
    (h : ∀ x ∈ l, 1 ≤ f x) : l.length ≤ (l.map f).sum := by
  induction l with
  | nil => simp
  | cons x t ih =>
    rw [List.map_cons, List.sum_cons, List.length_cons]
    have h1 := h x (List.mem_cons_self _ _)
    have h2 := ih (fun y hy => h y (List.mem_cons_of_mem _ hy))
    omega

theorem sum_map_ones {α : Type} (l : List α) (f : α → Nat)
    (h : ∀ x ∈ l, f x = 1) : (l.map f).sum = l.length := by
  induction l with
  | nil => simp
  | cons x t ih =>
    rw [List.map_cons, List.sum_cons, List.length_cons,
      h x (List.mem_cons_self _ _), ih (fun y hy => h y (List.mem_cons_of_mem _ hy))]
    omega

theorem SplitIntoTUs_eq_pos (n : Int) (hn : 0 < n) (trees : ASTList)
    (hheads : trees.toList.all isTreeHead = true) :
    SplitIntoTUs n (ASTNode.main (ASTNode.func trees))
      = some (ASTNode.main (ASTNode.func (ASTList.ofList
          ((List.range n.toNat).filterMap (fun u =>
            if u * ((trees.toList.length + n.toNat - 1) / n.toNat)
                < min ((u + 1) * ((trees.toList.length + n.toNat - 1) / n.toNat))
                    trees.toList.length then
              some (ASTNode.tu
                ((countTUNodes (ASTNode.main (ASTNode.func trees)) + u : Nat) : Int)
                (ASTNode.func (ASTList.ofList
                  ((trees.toList.drop
                      (u * ((trees.toList.length + n.toNat - 1) / n.toNat))).take
                    (min ((u + 1) * ((trees.toList.length + n.toNat - 1) / n.toNat))
                        trees.toList.length
                      - u * ((trees.toList.length + n.toNat - 1) / n.toNat))))))
            else none))))) := by
  unfold SplitIntoTUs
  rw [if_neg (by omega)]
  simp only [hheads, if_true]

/-- C4: `SplitIntoTUs(n)` with `n ≤ 0` leaves the AST unchanged; with
`n > 0` it replaces the children of the Function node under Main (each a
per-tree Condition/Output head) by at most `n` TranslationUnit nodes, each
wrapping a fresh Function holding a non-empty contiguous group of at most
`ceil(ntree/n)` subtrees; the Function has no direct Condition or Output
children anymore; the concatenation of the groups in order equals the
original tree sequence; and when `n ≥ ntree` there are exactly `ntree`
TranslationUnits, each holding one tree. -/
theorem c4_split_into_tus (n : Int) (ast : ASTNode) :
    (n ≤ 0 → SplitIntoTUs n ast = some ast)
    ∧ (∀ trees : ASTList, 0 < n → ast = ASTNode.main (ASTNode.func trees) →
        (∀ x ∈ trees.toList, isTreeHead x = true) →
        ∃ tus : List ASTNode,
          SplitIntoTUs n ast
            = some (ASTNode.main (ASTNode.func (ASTList.ofList tus)))
          ∧ tus.length ≤ n.toNat
          ∧ (∀ x ∈ tus, ∃ uid g,
              x = ASTNode.tu uid (ASTNode.func (ASTList.ofList g))
              ∧ g ≠ []
              ∧ g.length ≤ (trees.toList.length + n.toNat - 1) / n.toNat)
          ∧ tus.flatMap tuTrees = trees.toList
          ∧ ((trees.toList.length : Int) ≤ n →
              tus.length = trees.toList.length
              ∧ ∀ x ∈ tus, ∃ uid t0,
                  x = ASTNode.tu uid (ASTNode.func (ASTList.cons t0 ASTList.nil)))) := by
  constructor
  · intro hn
    unfold SplitIntoTUs
    rw [if_pos hn]
  · intro trees hn hast hheads
    subst hast
    have hnt : 0 < n.toNat := by omega
    set l := trees.toList with hl
    set d := (l.length + n.toNat - 1) / n.toNat with hd
    set cnum := countTUNodes (ASTNode.main (ASTNode.func trees)) with hcnum
    set tus := (List.range n.toNat).filterMap (fun u =>
      if u * d < min ((u + 1) * d) l.length then
        some (ASTNode.tu ((cnum + u : Nat) : Int)
          (ASTNode.func (ASTList.ofList
            ((l.drop (u * d)).take (min ((u + 1) * d) l.length - u * d)))))
      else none) with htus
    refine ⟨tus, ?_, ?_, ?_, ?_, ?_⟩
    · exact SplitIntoTUs_eq_pos n hn trees (List.all_eq_true.mpr hheads)
    · calc tus.length ≤ (List.range n.toNat).length := List.length_filterMap_le _ _
        _ = n.toNat := List.length_range _
    · intro x hx
      rw [htus] at hx
      obtain ⟨u, _, hfu⟩ := List.mem_filterMap.mp hx
      by_cases hcond : u * d < min ((u + 1) * d) l.length
      · rw [if_pos hcond] at hfu
        injection hfu with hfu
        refine ⟨_, _, hfu.symm, ?_, ?_⟩
        · have hlen : ((l.drop (u * d)).take
              (min ((u + 1) * d) l.length - u * d)).length
              = min ((u + 1) * d) l.length - u * d := by
            rw [List.length_take, List.length_drop]
            omega
          intro hnil
          rw [hnil] at hlen
          simp only [List.length_nil] at hlen
          omega
        · have h1 : (u + 1) * d = u * d + d := by ring
          calc ((l.drop (u * d)).take
              (min ((u + 1) * d) l.length - u * d)).length
              ≤ min ((u + 1) * d) l.length - u * d := by
                rw [List.length_take]; omega
            _ ≤ d := by omega
      · rw [if_neg hcond] at hfu
        cases hfu
    · rw [htus, flatMap_tuChunks l d cnum n.toNat]
      refine List.take_of_length_le ?_
      calc l.length ≤ n.toNat * d := ceil_mul_ge l.length n.toNat hnt
        _ = n.toNat * d := rfl
    · intro hle
      have hle2 : l.length ≤ n.toNat := by omega
      have hjoin : tus.flatMap tuTrees = l := by
        rw [htus, flatMap_tuChunks l d cnum n.toNat]
        exact List.take_of_length_le (le_trans (ceil_mul_ge l.length n.toNat hnt) (le_refl _))
      have hshape : ∀ x ∈ tus, ∃ uid g,
          x = ASTNode.tu uid (ASTNode.func (ASTList.ofList g)) ∧ g ≠ [] ∧ g.length ≤ d := by
        intro x hx
        rw [htus] at hx
        obtain ⟨u, _, hfu⟩ := List.mem_filterMap.mp hx
        by_cases hcond : u * d < min ((u + 1) * d) l.length
        · rw [if_pos hcond] at hfu
          injection hfu with hfu
          refine ⟨_, _, hfu.symm, ?_, ?_⟩
          · have hlen : ((l.drop (u * d)).take
                (min ((u + 1) * d) l.length - u * d)).length
                = min ((u + 1) * d) l.length - u * d := by
              rw [List.length_take, List.length_drop]
              omega
            intro hnil
            rw [hnil] at hlen
            simp only [List.length_nil] at hlen
            omega
          · have h1 : (u + 1) * d = u * d + d := by ring
            calc ((l.drop (u * d)).take
                (min ((u + 1) * d) l.length - u * d)).length
                ≤ min ((u + 1) * d) l.length - u * d := by
                  rw [List.length_take]; omega
              _ ≤ d := by omega
        · rw [if_neg hcond] at hfu
          cases hfu
      rcases Nat.eq_zero_or_pos l.length with hzero | hpos
      · -- no trees: the TU list must be empty
        have hlen0 : (tus.map (List.length ∘ tuTrees)).sum = 0 := by
          rw [← List.length_flatMap, hjoin, hzero]
        have hlensum := length_le_sum_map tus (List.length ∘ tuTrees) ?_
        · constructor
          · omega
          · intro x hx
            exfalso
            have : 0 < tus.length := List.length_pos.mpr (List.ne_nil_of_mem hx)
            omega
        · intro x hx
          obtain ⟨uid, g, hxeq, hgne, _⟩ := hshape x hx
          have : tuTrees x = g := by rw [hxeq, tuTrees, ASTList.toList_ofList]
          simp only [Function.comp_apply, this]
          exact Nat.one_le_iff_ne_zero.mpr (fun hg0 => hgne (List.eq_nil_of_length_eq_zero hg0))
      · -- 1 ≤ ntree ≤ n: unit size is 1, so every group is a singleton
        have hd1 : d = 1 := by
          rw [hd]
          refine Nat.div_eq_of_lt_le ?_ ?_
          · omega
          · omega
        have hone : ∀ x ∈ tus, (List.length ∘ tuTrees) x = 1 := by
          intro x hx
          obtain ⟨uid, g, hxeq, hgne, hgle⟩ := hshape x hx
          have hgt : tuTrees x = g := by rw [hxeq, tuTrees, ASTList.toList_ofList]
          simp only [Function.comp_apply, hgt]
          have : 0 < g.length := List.length_pos.mpr hgne
          omega
        have hsum : (tus.map (List.length ∘ tuTrees)).sum = l.length := by
          rw [← List.length_flatMap, hjoin]
        rw [sum_map_ones tus _ hone] at hsum
        refine ⟨hsum, ?_⟩
        intro x hx
        obtain ⟨uid, g, hxeq, hgne, hgle⟩ := hshape x hx
        have hgt : tuTrees x = g := by rw [hxeq, tuTrees, ASTList.toList_ofList]
        have hg1 : g.length = 1 := by
          have := hone x hx
          rw [Function.comp_apply, hgt] at this
          exact this
        match g, hg1 with
        | [t0], _ => exact ⟨uid, t0, by rw [hxeq]; rfl⟩

/-- A concrete three-tree function body used to witness the split pass. -/
def c4Demo : ASTList :=
  ASTList.cons (ASTNode.output 0 0 [1])
    (ASTList.cons (ASTNode.output 0 0 [2])
      (ASTList.cons (ASTNode.output 0 0 [3]) ASTList.nil))

/-- Witness for C4: splitting three single-leaf trees into two translation
units yields groups of size `ceil(3/2) = 2`. -/
theorem c4_split_into_tus_witness :
    ∃ tus : List ASTNode,
      SplitIntoTUs 2 (ASTNode.main (ASTNode.func c4Demo))
        = some (ASTNode.main (ASTNode.func (ASTList.ofList tus)))
      ∧ tus.length ≤ (2 : Int).toNat
      ∧ (∀ x ∈ tus, ∃ uid g,
          x = ASTNode.tu uid (ASTNode.func (ASTList.ofList g))
          ∧ g ≠ []
          ∧ g.length ≤ (c4Demo.toList.length + (2 : Int).toNat - 1) / (2 : Int).toNat)
      ∧ tus.flatMap tuTrees = c4Demo.toList
      ∧ ((c4Demo.toList.length : Int) ≤ 2 →
          tus.length = c4Demo.toList.length
          ∧ ∀ x ∈ tus, ∃ uid t0,
              x = ASTNode.tu uid (ASTNode.func (ASTList.cons t0 ASTList.nil))) :=
  (c4_split_into_tus 2 (ASTNode.main (ASTNode.func c4Demo))).2 c4Demo
    (by decide) rfl (by decide)

/-! ## quantize_thresholds (src/compiler/ast/quantize.cc) -/

/-- `std::set<ThresholdType>::insert`: the cut-point sets are kept as
strictly ascending duplicate-free lists. -/
def insertSorted (x : Rat) : List Rat → List Rat
  | [] => [x]
  | y :: t => if x < y then x :: y :: t else if x = y then y :: t else y :: insertSorted x t

/-- `std::lower_bound` on an ascending range: the index of the first
element that is not less than `x` (the insertion point of `x`). -/
def lowerBound (l : List Rat) (x : Rat) : Nat :=
  match l with
  | [] => 0
  | y :: t => if y < x then 1 + lowerBound t x else 0

/-- `tl2cgen::detail::math::BinarySearch`
(include/tl2cgen/detail/math_funcs.h): `std::lower_bound` followed by an
equality check; the index of `x` if found, `none` otherwise. -/
def binarySearchIdx (l : List Rat) (x : Rat) : Option Nat :=
  let i := lowerBound l x
  if i < l.length ∧ l.getD i 0 = x then some i else none

theorem mem_insertSorted (x a : Rat) :
    ∀ l : List Rat, a ∈ insertSorted x l ↔ a = x ∨ a ∈ l := by
  intro l
  induction l with
  | nil => simp [insertSorted]
  | cons y t ih =>
    simp only [insertSorted]
    split_ifs with h1 h2
    · simp [List.mem_cons]
    · subst h2
      simp only [List.mem_cons]
      tauto
    · simp only [List.mem_cons, ih]
      tauto

theorem sorted_insertSorted (x : Rat) :
    ∀ l : List Rat, l.Sorted (· < ·) → (insertSorted x l).Sorted (· < ·) := by
  intro l
  induction l with
  | nil => intro _; simp [insertSorted]
  | cons y t ih =>
    intro hs
    rw [List.sorted_cons] at hs
    obtain ⟨hy, ht⟩ := hs
    simp only [insertSorted]
    split_ifs with h1 h2
    · rw [List.sorted_cons]
      refine ⟨?_, by rw [List.sorted_cons]; exact ⟨hy, ht⟩⟩
      intro b hb
      rcases List.mem_cons.mp hb with rfl | hb2
      · exact h1
      · exact lt_trans h1 (hy b hb2)
    · rw [List.sorted_cons]
      exact ⟨hy, ht⟩
    · rw [List.sorted_cons]
      refine ⟨?_, ih ht⟩
      intro b hb
      rcases (mem_insertSorted x b t).mp hb with rfl | hb2
      · exact lt_of_le_of_ne (not_lt.mp h1) (fun he => h2 he.symm)
      · exact hy b hb2

theorem lowerBound_le_length (x : Rat) :
    ∀ l : List Rat, lowerBound l x ≤ l.length := by
  intro l
  induction l with
  | nil => simp [lowerBound]
  | cons y t ih =>
    simp only [lowerBound]
    split_ifs
    · simp only [List.length_cons]
      omega
    · simp

theorem lowerBound_mem (x : Rat) :
    ∀ l : List Rat, l.Sorted (· < ·) → x ∈ l →
      lowerBound l x < l.length ∧ l.getD (lowerBound l x) 0 = x := by
  intro l
  induction l with
  | nil => intro _ hx; cases hx
  | cons y t ih =>
    intro hs hx
    rw [List.sorted_cons] at hs
    obtain ⟨hy, ht⟩ := hs
    simp only [lowerBound]
    split_ifs with h1
    · have hxt : x ∈ t := by
        rcases List.mem_cons.mp hx with rfl | hxt
        · exact absurd h1 (lt_irrefl x)
        · exact hxt
      obtain ⟨ihl, ihg⟩ := ih ht hxt
      constructor
      · simp only [List.length_cons]
        omega
      · rw [show 1 + lowerBound t x = lowerBound t x + 1 by omega, List.getD_cons_succ]
        exact ihg
    · have hxy : x = y := by
        rcases List.mem_cons.mp hx with rfl | hxt
        · rfl
        · exact absurd (hy x hxt) h1
      simp [hxy]

theorem lowerBound_not_mem_getD (x : Rat) :
    ∀ l : List Rat, l.Sorted (· < ·) → x ∉ l →
      lowerBound l x < l.length → ¬(l.getD (lowerBound l x) 0 = x) := by
  intro l
  induction l with
  | nil => intro _ _ h; simp at h
  | cons y t ih =>
    intro hs hx hlt
    rw [List.sorted_cons] at hs
    obtain ⟨hy, ht⟩ := hs
    simp only [lowerBound] at hlt ⊢
    split_ifs with h1
    · rw [if_pos h1] at hlt
      rw [show 1 + lowerBound t x = lowerBound t x + 1 by omega, List.getD_cons_succ]
      refine ih ht (fun hxt => hx (List.mem_cons_of_mem _ hxt)) ?_
      simp only [List.length_cons] at hlt
      omega
    · simp only [List.getD_cons_zero]
      intro heq
      exact hx (by rw [← heq]; exact List.mem_cons_self _ _)

theorem getD_set_poly {α : Type} (d : α) (a : List α) :
    ∀ (i j : Nat) (v : α), j < a.length →
      (a.set i v).getD j d = if i = j then v else a.getD j d := by
  induction a with
  | nil => intro i j v h; simp at h
  | cons x t ih =>
    intro i j v h
    cases i with
    | zero =>
      cases j with
      | zero => simp
      | succ j2 => simp [List.set]
    | succ i2 =>
      cases j with
      | zero => simp [List.set]
      | succ j2 =>
        simp only [List.set, List.getD_cons_succ, add_left_inj]
        exact ih i2 j2 v (by simpa using h)

theorem getD_replicate_nil (nf : Nat) (f : Nat) :
    (List.replicate nf ([] : List Rat)).getD f [] = [] := by
  induction nf generalizing f with
  | zero => simp
  | succ n ih =>
    cases f with
    | zero => simp [List.replicate]
    | succ f2 => simp only [List.replicate, List.getD_cons_succ]; exact ih f2

mutual

/-- `ScanThresholds` (src/compiler/ast/quantize.cc, lines 22-34): walk the
AST and insert every finite threshold of a NumericalCondition into the
cut-point set of its `split_index`. -/
def scanThresholds : ASTNode → List (List Rat) → List (List Rat)
  | ASTNode.main c, cp => scanThresholds c cp
  | ASTNode.quant _ c, cp => scanThresholds c cp
  | ASTNode.func ch, cp => scanThresholdsList ch cp
  | ASTNode.tu _ c, cp => scanThresholds c cp
  | ASTNode.numCond si _ _ th _ _ l r, cp =>
    scanThresholds r (scanThresholds l
      (match th with
       | FloatVal.finite q => cp.set si (insertSorted q (cp.getD si []))
       | _ => cp))
  | ASTNode.catCond _ _ _ _ l r, cp => scanThresholds r (scanThresholds l cp)
  | ASTNode.output _ _ _, cp => cp

def scanThresholdsList : ASTList → List (List Rat) → List (List Rat)
  | ASTList.nil, cp => cp
  | ASTList.cons h t, cp => scanThresholdsList t (scanThresholds h cp)

end

mutual

/-- `RewriteThresholds` (src/compiler/ast/quantize.cc, lines 36-62): for a
NumericalCondition with a finite threshold, store
`BinarySearch(cut_pts[split_index], threshold) * 2` in
`quantized_threshold_` (the `TL2CGEN_CHECK(loc != v.end())` cannot fire
when the cut points were produced by `ScanThresholds`, which inserted the
threshold), and compute `zero_quantized_` from the insertion point of 0;
splits with infinite thresholds are not quantized. -/
def rewriteThresholds (cp : List (List Rat)) : ASTNode → ASTNode
  | ASTNode.main c => ASTNode.main (rewriteThresholds cp c)
  | ASTNode.quant tl c => ASTNode.quant tl (rewriteThresholds cp c)
  | ASTNode.func ch => ASTNode.func (rewriteThresholdsList cp ch)
  | ASTNode.tu uid c => ASTNode.tu uid (rewriteThresholds cp c)
  | ASTNode.numCond si dl op th qt zq l r =>
    (match th with
     | FloatVal.finite q =>
       let v := cp.getD si []
       let qt2 := (binarySearchIdx v q).map (fun (loc : Nat) => (loc : Int) * 2)
       let loc0 := lowerBound v 0
       let zq2 := if loc0 < v.length ∧ ¬(v.getD loc0 0 = 0)
         then (loc0 : Int) * 2 - 1 else (loc0 : Int) * 2
       ASTNode.numCond si dl op th qt2 zq2
         (rewriteThresholds cp l) (rewriteThresholds cp r)
     | _ => ASTNode.numCond si dl op th qt zq
         (rewriteThresholds cp l) (rewriteThresholds cp r))
  | ASTNode.catCond si dl cats rc l r =>
    ASTNode.catCond si dl cats rc (rewriteThresholds cp l) (rewriteThresholds cp r)
  | ASTNode.output t c lo => ASTNode.output t c lo

def rewriteThresholdsList (cp : List (List Rat)) : ASTList → ASTList
  | ASTList.nil => ASTList.nil
  | ASTList.cons h t =>
    ASTList.cons (rewriteThresholds cp h) (rewriteThresholdsList cp t)

end

mutual

/-- Whether some NumericalCondition already carries a quantized threshold
(the `TL2CGEN_CHECK(!num_cond->quantized_threshold_)` idempotence guard of
`ScanThresholds` / `RewriteThresholds`). -/
def anyQuantized : ASTNode → Bool
  | ASTNode.main c => anyQuantized c
  | ASTNode.quant _ c => anyQuantized c
  | ASTNode.func ch => anyQuantizedList ch
  | ASTNode.tu _ c => anyQuantized c
  | ASTNode.numCond _ _ _ _ qt _ l r =>
    qt.isSome || anyQuantized l || anyQuantized r
  | ASTNode.catCond _ _ _ _ l r => anyQuantized l || anyQuantized r
  | ASTNode.output _ _ _ => false

def anyQuantizedList : ASTList → Bool
  | ASTList.nil => false
  | ASTList.cons h t => anyQuantized h || anyQuantizedList t

end

mutual

/-- Whether feature `f` has a NumericalCondition with finite threshold `q`
somewhere in the AST. -/
def hasThr (f : Nat) (q : Rat) : ASTNode → Bool
  | ASTNode.main c => hasThr f q c
  | ASTNode.quant _ c => hasThr f q c
  | ASTNode.func ch => hasThrList f q ch
  | ASTNode.tu _ c => hasThr f q c
  | ASTNode.numCond si _ _ th _ _ l r =>
    (decide (si = f) && decide (th = FloatVal.finite q)) || hasThr f q l || hasThr f q r
  | ASTNode.catCond _ _ _ _ l r => hasThr f q l || hasThr f q r
  | ASTNode.output _ _ _ => false

def hasThrList (f : Nat) (q : Rat) : ASTList → Bool
  | ASTList.nil => false
  | ASTList.cons h t => hasThr f q h || hasThrList f q t

end

mutual

/-- Every NumericalCondition's `split_index` is below `nf` (the
`num_feature` bound that sizes the cut-point vector). -/
def splitIdxBounded (nf : Nat) : ASTNode → Bool
  | ASTNode.main c => splitIdxBounded nf c
  | ASTNode.quant _ c => splitIdxBounded nf c
  | ASTNode.func ch => splitIdxBoundedList nf ch
  | ASTNode.tu _ c => splitIdxBounded nf c
  | ASTNode.numCond si _ _ _ _ _ l r =>
    decide (si < nf) && splitIdxBounded nf l && splitIdxBounded nf r
  | ASTNode.catCond _ _ _ _ l r => splitIdxBounded nf l && splitIdxBounded nf r
  | ASTNode.output _ _ _ => true

def splitIdxBoundedList (nf : Nat) : ASTList → Bool
  | ASTList.nil => true
  | ASTList.cons h t => splitIdxBounded nf h && splitIdxBoundedList nf t

end

mutual

/-- `p` holds at every node of the AST. -/
def allNodes (p : ASTNode → Prop) : ASTNode → Prop
  | ASTNode.main c => p (ASTNode.main c) ∧ allNodes p c
  | ASTNode.quant tl c => p (ASTNode.quant tl c) ∧ allNodes p c
  | ASTNode.func ch => p (ASTNode.func ch) ∧ allNodesList p ch
  | ASTNode.tu uid c => p (ASTNode.tu uid c) ∧ allNodes p c
  | ASTNode.numCond si dl op th qt zq l r =>
    p (ASTNode.numCond si dl op th qt zq l r) ∧ allNodes p l ∧ allNodes p r
  | ASTNode.catCond si dl cats rc l r =>
    p (ASTNode.catCond si dl cats rc l r) ∧ allNodes p l ∧ allNodes p r
  | ASTNode.output t c lo => p (ASTNode.output t c lo)

def allNodesList (p : ASTNode → Prop) : ASTList → Prop
  | ASTList.nil => True
  | ASTList.cons h t => allNodes p h ∧ allNodesList p t

end

/-- `ASTBuilder::QuantizeThresholds` (src/compiler/ast/quantize.cc, lines
68-98): guard against double quantization, scan the finite thresholds into
per-feature ascending duplicate-free lists, rewrite every numerical split,
check that the child of Main is a Function, and interpose a Quantizer node
owning the threshold lists. `TL2CGEN_CHECK` failures are modelled as
`none`. -/
def QuantizeThresholds (numFeature : Nat) (ast : ASTNode) : Option ASTNode :=
  if anyQuantized ast then none
  else
    let cutPts := scanThresholds ast (List.replicate numFeature [])
    match rewriteThresholds cutPts ast with
    | ASTNode.main (ASTNode.func ch) =>
      some (ASTNode.main (ASTNode.quant cutPts (ASTNode.func ch)))
    | _ => none

theorem set_insert_sorted (cp : List (List Rat)) (si : Nat) (q0 : Rat)
    (hs : ∀ f, (cp.getD f []).Sorted (· < ·)) :
    ∀ f, ((cp.set si (insertSorted q0 (cp.getD si []))).getD f []).Sorted (· < ·) := by
  intro f
  by_cases hf : f < cp.length
  · rw [getD_set_poly [] cp si f _ hf]
    split_ifs with he
    · exact sorted_insertSorted q0 _ (hs si)
    · exact hs f
  · rw [List.getD_eq_default _ _ (by rw [List.length_set]; omega)]
    simp

theorem set_insert_mem (cp : List (List Rat)) (si : Nat) (q0 : Rat)
    (hsi : si < cp.length) (f : Nat) (q : Rat) :
    q ∈ (cp.set si (insertSorted q0 (cp.getD si []))).getD f [] ↔
      q ∈ cp.getD f [] ∨ (si = f ∧ q0 = q) := by
  by_cases hf : f < cp.length
  · rw [getD_set_poly [] cp si f _ hf]
    split_ifs with he
    · subst he
      rw [mem_insertSorted q0 q]
      constructor
      · rintro (rfl | h)
        · exact Or.inr ⟨rfl, rfl⟩
        · exact Or.inl h
      · rintro (h | ⟨-, rfl⟩)
        · exact Or.inr h
        · exact Or.inl rfl
    · constructor
      · exact fun h => Or.inl h
      · rintro (h | ⟨rfl, -⟩)
        · exact h
        · exact absurd rfl he
  · have h1 : (cp.set si (insertSorted q0 (cp.getD si []))).getD f [] = [] :=
      List.getD_eq_default _ _ (by rw [List.length_set]; omega)
    have h2 : cp.getD f [] = [] := List.getD_eq_default _ _ (by omega)
    rw [h1, h2]
    simp only [List.not_mem_nil, false_iff, false_or, not_and]
    intro hsif
    omega

set_option maxHeartbeats 2000000 in
mutual

theorem scan_spec_node : ∀ (ast : ASTNode) (cp : List (List Rat)),
    (scanThresholds ast cp).length = cp.length
    ∧ ((∀ f, (cp.getD f []).Sorted (· < ·)) →
        ∀ f, ((scanThresholds ast cp).getD f []).Sorted (· < ·))
    ∧ (splitIdxBounded cp.length ast = true →
        ∀ f q, q ∈ (scanThresholds ast cp).getD f [] ↔
          q ∈ cp.getD f [] ∨ hasThr f q ast = true)
  | ASTNode.main c, cp => by
    have ih := scan_spec_node c cp
    simpa only [scanThresholds, splitIdxBounded, hasThr] using ih
  | ASTNode.quant tl c, cp => by
    have ih := scan_spec_node c cp
    simpa only [scanThresholds, splitIdxBounded, hasThr] using ih
  | ASTNode.func ch, cp => by
    have ih := scan_spec_list ch cp
    simpa only [scanThresholds, splitIdxBounded, hasThr] using ih
  | ASTNode.tu uid c, cp => by
    have ih := scan_spec_node c cp
    simpa only [scanThresholds, splitIdxBounded, hasThr] using ih
  | ASTNode.numCond si dl op th qt zq l r, cp => by
    cases th with
    | finite q0 =>
      have hlen2 : (cp.set si (insertSorted q0 (cp.getD si []))).length = cp.length :=
        List.length_set _ _ _
      obtain ⟨Alen, Asort, Amem⟩ :=
        scan_spec_node l (cp.set si (insertSorted q0 (cp.getD si [])))
      obtain ⟨Blen, Bsort, Bmem⟩ :=
        scan_spec_node r (scanThresholds l (cp.set si (insertSorted q0 (cp.getD si []))))
      refine ⟨?_, ?_, ?_⟩
      · simp only [scanThresholds]
        rw [Blen, Alen, hlen2]
      · intro hs f
        simp only [scanThresholds]
        exact Bsort (fun f2 => Asort (set_insert_sorted cp si q0 hs) f2) f
      · intro hb f q
        simp only [splitIdxBounded, Bool.and_eq_true, decide_eq_true_eq] at hb
        obtain ⟨⟨hsi, hbl⟩, hbr⟩ := hb
        simp only [scanThresholds]
        rw [Bmem (by rw [Alen, hlen2]; exact hbr) f q,
          Amem (by rw [hlen2]; exact hbl) f q,
          set_insert_mem cp si q0 hsi f q]
        simp only [hasThr, Bool.or_eq_true, Bool.and_eq_true, decide_eq_true_eq,
          FloatVal.finite.injEq]
        tauto
    | nan =>
      obtain ⟨Alen, Asort, Amem⟩ := scan_spec_node l cp
      obtain ⟨Blen, Bsort, Bmem⟩ := scan_spec_node r (scanThresholds l cp)
      refine ⟨?_, ?_, ?_⟩
      · simp only [scanThresholds]
        rw [Blen, Alen]
      · intro hs f
        simp only [scanThresholds]
        exact Bsort (fun f2 => Asort hs f2) f
      · intro hb f q
        simp only [splitIdxBounded, Bool.and_eq_true, decide_eq_true_eq] at hb
        obtain ⟨⟨hsi, hbl⟩, hbr⟩ := hb
        simp only [scanThresholds]
        rw [Bmem (by rw [Alen]; exact hbr) f q, Amem hbl f q]
        simp only [hasThr, Bool.or_eq_true, Bool.and_eq_true, decide_eq_true_eq,
          reduceCtorEq]
        tauto
    | negInf =>
      obtain ⟨Alen, Asort, Amem⟩ := scan_spec_node l cp
      obtain ⟨Blen, Bsort, Bmem⟩ := scan_spec_node r (scanThresholds l cp)
      refine ⟨?_, ?_, ?_⟩
      · simp only [scanThresholds]
        rw [Blen, Alen]
      · intro hs f
        simp only [scanThresholds]
        exact Bsort (fun f2 => Asort hs f2) f
      · intro hb f q
        simp only [splitIdxBounded, Bool.and_eq_true, decide_eq_true_eq] at hb
        obtain ⟨⟨hsi, hbl⟩, hbr⟩ := hb
        simp only [scanThresholds]
        rw [Bmem (by rw [Alen]; exact hbr) f q, Amem hbl f q]
        simp only [hasThr, Bool.or_eq_true, Bool.and_eq_true, decide_eq_true_eq,
          reduceCtorEq]
        tauto
    | posInf =>
      obtain ⟨Alen, Asort, Amem⟩ := scan_spec_node l cp
      obtain ⟨Blen, Bsort, Bmem⟩ := scan_spec_node r (scanThresholds l cp)
      refine ⟨?_, ?_, ?_⟩
      · simp only [scanThresholds]
        rw [Blen, Alen]
      · intro hs f
        simp only [scanThresholds]
        exact Bsort (fun f2 => Asort hs f2) f
      · intro hb f q
        simp only [splitIdxBounded, Bool.and_eq_true, decide_eq_true_eq] at hb
        obtain ⟨⟨hsi, hbl⟩, hbr⟩ := hb
        simp only [scanThresholds]
        rw [Bmem (by rw [Alen]; exact hbr) f q, Amem hbl f q]
        simp only [hasThr, Bool.or_eq_true, Bool.and_eq_true, decide_eq_true_eq,
          reduceCtorEq]
        tauto
  | ASTNode.catCond si dl cats rc l r, cp => by
    obtain ⟨Alen, Asort, Amem⟩ := scan_spec_node l cp
    obtain ⟨Blen, Bsort, Bmem⟩ := scan_spec_node r (scanThresholds l cp)
    refine ⟨?_, ?_, ?_⟩
    · simp only [scanThresholds]
      rw [Blen, Alen]
    · intro hs f
      simp only [scanThresholds]
      exact Bsort (fun f2 => Asort hs f2) f
    · intro hb f q
      simp only [splitIdxBounded, Bool.and_eq_true] at hb
      obtain ⟨hbl, hbr⟩ := hb
      simp only [scanThresholds]
      rw [Bmem (by rw [Alen]; exact hbr) f q, Amem hbl f q]
      simp only [hasThr, Bool.or_eq_true]
      tauto
  | ASTNode.output t c lo, cp => by
    refine ⟨rfl, fun hs f => hs f, ?_⟩
    intro _ f q
    simp [scanThresholds, hasThr]

theorem scan_spec_list : ∀ (l : ASTList) (cp : List (List Rat)),
    (scanThresholdsList l cp).length = cp.length
    ∧ ((∀ f, (cp.getD f []).Sorted (· < ·)) →
        ∀ f, ((scanThresholdsList l cp).getD f []).Sorted (· < ·))
    ∧ (splitIdxBoundedList cp.length l = true →
        ∀ f q, q ∈ (scanThresholdsList l cp).getD f [] ↔
          q ∈ cp.getD f [] ∨ hasThrList f q l = true)
  | ASTList.nil, cp => by
    refine ⟨rfl, fun hs f => hs f, ?_⟩
    intro _ f q
    simp [scanThresholdsList, hasThrList]
  | ASTList.cons h t, cp => by
    obtain ⟨Alen, Asort, Amem⟩ := scan_spec_node h cp
    obtain ⟨Blen, Bsort, Bmem⟩ := scan_spec_list t (scanThresholds h cp)
    refine ⟨?_, ?_, ?_⟩
    · simp only [scanThresholdsList]
      rw [Blen, Alen]
    · intro hs f
      simp only [scanThresholdsList]
      exact Bsort (fun f2 => Asort hs f2) f
    · intro hb f q
      simp only [splitIdxBoundedList, Bool.and_eq_true] at hb
      obtain ⟨hbh, hbt⟩ := hb
      simp only [scanThresholdsList]
      rw [Bmem (by rw [Alen]; exact hbt) f q, Amem hbh f q]
      simp only [hasThrList, Bool.or_eq_true]
      tauto

end

/-- What C1 (as amended) asserts of each node after the rewrite: a
NumericalCondition with finite threshold `q` carries
`quantized_threshold = 2k` where `k` is the index of `q` in the
threshold list of its feature, and `zero_quantized` is `2i` when 0 sits
at index `i`, `2·len` when the insertion point of 0 is past the last
element, and `2i − 1` when the insertion point `i` is interior; a
non-finite threshold stays unquantized. -/
def numCondProp (cp : List (List Rat)) (node : ASTNode) : Prop :=
  ∀ si dl op th qt zq l r, node = ASTNode.numCond si dl op th qt zq l r →
    ((∀ q : Rat, th = FloatVal.finite q →
        (∃ k, k < (cp.getD si []).length ∧ (cp.getD si []).getD k 0 = q
          ∧ qt = some (2 * (k : Int)))
        ∧ ((0 : Rat) ∈ cp.getD si [] →
            ∃ i, i < (cp.getD si []).length ∧ (cp.getD si []).getD i 0 = 0
              ∧ zq = 2 * (i : Int))
        ∧ ((0 : Rat) ∉ cp.getD si [] →
            (lowerBound (cp.getD si []) 0 = (cp.getD si []).length →
              zq = 2 * ((cp.getD si []).length : Int))
            ∧ (lowerBound (cp.getD si []) 0 < (cp.getD si []).length →
              zq = 2 * ((lowerBound (cp.getD si []) 0 : Int)) - 1)))
      ∧ (th.isFinite = false → qt = none))

theorem numCondProp_of_fields (cp : List (List Rat)) (si : Nat) (dl : Bool)
    (op : CmpOp) (th : FloatVal) (qt : Option Int) (zq : Int) (l r : ASTNode)
    (hfin : ∀ q : Rat, th = FloatVal.finite q →
      (∃ k, k < (cp.getD si []).length ∧ (cp.getD si []).getD k 0 = q
        ∧ qt = some (2 * (k : Int)))
      ∧ ((0 : Rat) ∈ cp.getD si [] →
          ∃ i, i < (cp.getD si []).length ∧ (cp.getD si []).getD i 0 = 0
            ∧ zq = 2 * (i : Int))
      ∧ ((0 : Rat) ∉ cp.getD si [] →
          (lowerBound (cp.getD si []) 0 = (cp.getD si []).length →
            zq = 2 * ((cp.getD si []).length : Int))
          ∧ (lowerBound (cp.getD si []) 0 < (cp.getD si []).length →
            zq = 2 * ((lowerBound (cp.getD si []) 0 : Int)) - 1)))
    (hinf : th.isFinite = false → qt = none) :
    numCondProp cp (ASTNode.numCond si dl op th qt zq l r) := by
  intro si2 dl2 op2 th2 qt2 zq2 l2 r2 h
  injection h with h1 h2 h3 h4 h5 h6 h7 h8
  subst h1
  subst h4
  subst h5
  subst h6
  exact ⟨hfin, hinf⟩

set_option maxHeartbeats 2000000 in
mutual

theorem rewrite_spec_node : ∀ (ast : ASTNode) (cp : List (List Rat)),
    (∀ f, (cp.getD f []).Sorted (· < ·)) →
    anyQuantized ast = false →
    (∀ f q, hasThr f q ast = true → q ∈ cp.getD f []) →
    allNodes (numCondProp cp) (rewriteThresholds cp ast)
  | ASTNode.main c, cp => by
    intro hs hq hc
    simp only [rewriteThresholds, allNodes]
    refine ⟨?_, ?_⟩
    · intro si dl op th qt zq l r h
      exact ASTNode.noConfusion h
    · exact rewrite_spec_node c cp hs (by simpa only [anyQuantized] using hq)
        (fun f q hf => hc f q (by simpa only [hasThr] using hf))
  | ASTNode.quant tl c, cp => by
    intro hs hq hc
    simp only [rewriteThresholds, allNodes]
    refine ⟨?_, ?_⟩
    · intro si dl op th qt zq l r h
      exact ASTNode.noConfusion h
    · exact rewrite_spec_node c cp hs (by simpa only [anyQuantized] using hq)
        (fun f q hf => hc f q (by simpa only [hasThr] using hf))
  | ASTNode.func ch, cp => by
    intro hs hq hc
    simp only [rewriteThresholds, allNodes]
    refine ⟨?_, ?_⟩
    · intro si dl op th qt zq l r h
      exact ASTNode.noConfusion h
    · exact rewrite_spec_list ch cp hs (by simpa only [anyQuantized] using hq)
        (fun f q hf => hc f q (by simpa only [hasThr] using hf))
  | ASTNode.tu uid c, cp => by
    intro hs hq hc
    simp only [rewriteThresholds, allNodes]
    refine ⟨?_, ?_⟩
    · intro si dl op th qt zq l r h
      exact ASTNode.noConfusion h
    · exact rewrite_spec_node c cp hs (by simpa only [anyQuantized] using hq)
        (fun f q hf => hc f q (by simpa only [hasThr] using hf))
  | ASTNode.numCond si dl op th qt zq l r, cp => by
    intro hs hq hc
    simp only [anyQuantized, Bool.or_eq_false_iff] at hq
    obtain ⟨⟨hqt, hql⟩, hqr⟩ := hq
    have hqtn : qt = none := by
      cases qt with
      | none => rfl
      | some x => simp at hqt
    subst hqtn
    have hcl : ∀ f q2, hasThr f q2 l = true → q2 ∈ cp.getD f [] := fun f q2 hf =>
      hc f q2 (by
        simp only [hasThr, Bool.or_eq_true]
        exact Or.inl (Or.inr hf))
    have hcr : ∀ f q2, hasThr f q2 r = true → q2 ∈ cp.getD f [] := fun f q2 hf =>
      hc f q2 (by
        simp only [hasThr, Bool.or_eq_true]
        exact Or.inr hf)
    cases th with
    | finite q0 =>
      have hq0mem : q0 ∈ cp.getD si [] := hc si q0 (by simp [hasThr])
      obtain ⟨hklt, hkeq⟩ := lowerBound_mem q0 (cp.getD si []) (hs si) hq0mem
      simp only [rewriteThresholds, allNodes]
      refine ⟨?_, ?_, ?_⟩
      · refine numCondProp_of_fields cp si dl op (FloatVal.finite q0) _ _ _ _ ?_ ?_
        · intro q hth
          injection hth with hth
          subst hth
          refine ⟨⟨lowerBound (cp.getD si []) q0, hklt, hkeq, ?_⟩, ?_, ?_⟩
          · simp only [binarySearchIdx]
            rw [if_pos ⟨hklt, hkeq⟩]
            simp [mul_comm]
          · intro h0mem
            obtain ⟨hilt, hieq⟩ := lowerBound_mem 0 (cp.getD si []) (hs si) h0mem
            refine ⟨lowerBound (cp.getD si []) 0, hilt, hieq, ?_⟩
            rw [if_neg (by rintro ⟨-, hne⟩; exact hne hieq)]
            ring
          · intro h0nmem
            constructor
            · intro hlbl
              rw [if_neg (by rintro ⟨hlt, -⟩; omega), hlbl]
              ring
            · intro hlblt
              have hne := lowerBound_not_mem_getD 0 (cp.getD si []) (hs si) h0nmem hlblt
              rw [if_pos ⟨hlblt, hne⟩]
              ring
        · intro hfin
          simp [FloatVal.isFinite] at hfin
      · exact rewrite_spec_node l cp hs hql hcl
      · exact rewrite_spec_node r cp hs hqr hcr
    | nan =>
      simp only [rewriteThresholds, allNodes]
      exact ⟨numCondProp_of_fields cp si dl op FloatVal.nan none zq _ _
          (fun q hth => FloatVal.noConfusion hth) (fun _ => rfl),
        rewrite_spec_node l cp hs hql hcl, rewrite_spec_node r cp hs hqr hcr⟩
    | negInf =>
      simp only [rewriteThresholds, allNodes]
      exact ⟨numCondProp_of_fields cp si dl op FloatVal.negInf none zq _ _
          (fun q hth => FloatVal.noConfusion hth) (fun _ => rfl),
        rewrite_spec_node l cp hs hql hcl, rewrite_spec_node r cp hs hqr hcr⟩
    | posInf =>
      simp only [rewriteThresholds, allNodes]
      exact ⟨numCondProp_of_fields cp si dl op FloatVal.posInf none zq _ _
          (fun q hth => FloatVal.noConfusion hth) (fun _ => rfl),
        rewrite_spec_node l cp hs hql hcl, rewrite_spec_node r cp hs hqr hcr⟩
  | ASTNode.catCond si dl cats rc l r, cp => by
    intro hs hq hc
    simp only [anyQuantized, Bool.or_eq_false_iff] at hq
    obtain ⟨hql, hqr⟩ := hq
    simp only [rewriteThresholds, allNodes]
    refine ⟨?_, ?_, ?_⟩
    · intro si2 dl2 op2 th2 qt2 zq2 l2 r2 h
      exact ASTNode.noConfusion h
    · exact rewrite_spec_node l cp hs hql
        (fun f q hf => hc f q (by simp only [hasThr, Bool.or_eq_true]; exact Or.inl hf))
    · exact rewrite_spec_node r cp hs hqr
        (fun f q hf => hc f q (by simp only [hasThr, Bool.or_eq_true]; exact Or.inr hf))
  | ASTNode.output t c lo, cp => by
    intro hs hq hc
    simp only [rewriteThresholds, allNodes]
    intro si dl op th qt zq l r h
    exact ASTNode.noConfusion h

theorem rewrite_spec_list : ∀ (ll : ASTList) (cp : List (List Rat)),
    (∀ f, (cp.getD f []).Sorted (· < ·)) →
    anyQuantizedList ll = false →
    (∀ f q, hasThrList f q ll = true → q ∈ cp.getD f []) →
    allNodesList (numCondProp cp) (rewriteThresholdsList cp ll)
  | ASTList.nil, cp => by
    intro _ _ _
    exact trivial
  | ASTList.cons h t, cp => by
    intro hs hq hc
    simp only [anyQuantizedList, Bool.or_eq_false_iff] at hq
    obtain ⟨hqh, hqt⟩ := hq
    simp only [rewriteThresholdsList, allNodesList]
    refine ⟨?_, ?_⟩
    · exact rewrite_spec_node h cp hs hqh
        (fun f q hf => hc f q (by simp only [hasThrList, Bool.or_eq_true]; exact Or.inl hf))
    · exact rewrite_spec_list t cp hs hqt
        (fun f q hf => hc f q (by simp only [hasThrList, Bool.or_eq_true]; exact Or.inr hf))

end

/-- A single-split model AST: one tree testing `feature 0 < -1.0`. The only
finite threshold of feature 0 is −1, so `threshold_list[0] = [-1]` and the
insertion point of 0.0 is 1, past the last element. -/
def c1Demo : ASTNode :=
  ASTNode.main (ASTNode.func (ASTList.cons
    (ASTNode.numCond 0 true CmpOp.opLT (FloatVal.finite (-1)) none (-1)
      (ASTNode.output 0 0 [1]) (ASTNode.output 0 0 [2]))
    ASTList.nil))

/-- The `(quantized_threshold_, zero_quantized_)` pair of the first
numerical condition of a quantized AST. -/
def firstNumQuantFields : Option ASTNode → Option (Option Int × Int)
  | some (ASTNode.main (ASTNode.quant _ (ASTNode.func (ASTList.cons
      (ASTNode.numCond _ _ _ _ qt zq _ _) _)))) => some (qt, zq)
  | _ => none

/-- The threshold lists held by the Quantizer node of a quantized AST. -/
def mainQuantLists : Option ASTNode → Option (List (List Rat))
  | some (ASTNode.main (ASTNode.quant tl _)) => some tl
  | _ => none

/-- C1, counterexample: on the AST whose only finite threshold for
feature 0 is −1, the threshold list is `[-1]` and the insertion point of
0.0 is `i = 1`, past the last element; the claim then demands
`zero_quantized = 2*i − 1 = 1`, but `QuantizeThresholds` sets
`zero_quantized = 2` (the decrement is skipped because
`lower_bound == v.end()`). -/
theorem c1_zero_quantized_counterexample :
    mainQuantLists (QuantizeThresholds 1 c1Demo) = some [[-1]]
    ∧ lowerBound [(-1 : Rat)] 0 = 1
    ∧ firstNumQuantFields (QuantizeThresholds 1 c1Demo) = some (some 0, 2)
    ∧ ((2 : Int) ≠ 2 * 1 - 1) := by
  refine ⟨by decide, by decide, by decide, by decide⟩

/-- C1 (amended): for a model AST `Main → Function → trees` with all split
indices below `num_feature` and no threshold already quantized,
`QuantizeThresholds` interposes a Quantizer holding, for each feature, the
ascending duplicate-free list of exactly the finite thresholds occurring
in NumericalConditions of that feature; every finite numerical threshold
is rewritten to `2k` with `k` its index in `threshold_list[split_index]`;
non-finite thresholds stay unquantized; and `zero_quantized` is `2i` when
0.0 occurs at index `i`, `2·len` when the insertion point of 0.0 is past
the last element (this differs from the claim as stated, which demanded
`2i − 1` in that case), and `2i − 1` when the insertion point `i` is
interior. -/
theorem c1_quantize_thresholds (nf : Nat) (ch0 : ASTList)
    (hb : splitIdxBounded nf (ASTNode.main (ASTNode.func ch0)) = true) :
    ∀ out, QuantizeThresholds nf (ASTNode.main (ASTNode.func ch0)) = some out →
      ∃ cp ch, out = ASTNode.main (ASTNode.quant cp (ASTNode.func ch))
        ∧ cp.length = nf
        ∧ (∀ f, (cp.getD f []).Sorted (· < ·))
        ∧ (∀ f q, q ∈ cp.getD f [] ↔
            hasThr f q (ASTNode.main (ASTNode.func ch0)) = true)
        ∧ allNodes (numCondProp cp) out := by
  intro out hout
  simp only [QuantizeThresholds] at hout
  rcases hqa : anyQuantized (ASTNode.main (ASTNode.func ch0)) with _ | _
  · rw [hqa] at hout
    simp only [Bool.false_eq_true, if_false] at hout
    obtain ⟨len_i, sort_i, mem_i⟩ :=
      scan_spec_node (ASTNode.main (ASTNode.func ch0)) (List.replicate nf [])
    have hcplen : (scanThresholds (ASTNode.main (ASTNode.func ch0))
        (List.replicate nf [])).length = nf := by
      rw [len_i, List.length_replicate]
    have hsort : ∀ f, ((scanThresholds (ASTNode.main (ASTNode.func ch0))
        (List.replicate nf [])).getD f []).Sorted (· < ·) := by
      refine sort_i ?_
      intro f
      rw [getD_replicate_nil]
      simp
    have hmem : ∀ f q, q ∈ (scanThresholds (ASTNode.main (ASTNode.func ch0))
        (List.replicate nf [])).getD f [] ↔
        hasThr f q (ASTNode.main (ASTNode.func ch0)) = true := by
      intro f q
      rw [mem_i (by rw [List.length_replicate]; exact hb) f q, getD_replicate_nil]
      simp
    rw [show rewriteThresholds (scanThresholds (ASTNode.main (ASTNode.func ch0))
        (List.replicate nf [])) (ASTNode.main (ASTNode.func ch0))
        = ASTNode.main (ASTNode.func (rewriteThresholdsList
            (scanThresholds (ASTNode.main (ASTNode.func ch0))
              (List.replicate nf [])) ch0))
      from by simp only [rewriteThresholds]] at hout
    injection hout with hout
    refine ⟨_, _, hout.symm, hcplen, hsort, hmem, ?_⟩
    rw [← hout]
    simp only [allNodes]
    refine ⟨?_, ?_, ?_⟩
    · intro si dl op th qt zq l r h
      exact ASTNode.noConfusion h
    · intro si dl op th qt zq l r h
      exact ASTNode.noConfusion h
    · refine ⟨?_, ?_⟩
      · intro si dl op th qt zq l r h
        exact ASTNode.noConfusion h
      · refine rewrite_spec_list ch0 _ hsort ?_ ?_
        · simpa only [anyQuantized] using hqa
        · intro f q hf
          rw [hmem f q]
          simpa only [hasThr] using hf
  · rw [hqa] at hout
    simp at hout

/-- Witness for C1 (amended) at the concrete single-split AST `c1Demo`. -/
theorem c1_quantize_thresholds_witness :
    ∃ cp ch,
      (ASTNode.main (ASTNode.quant [[(-1 : Rat)]] (ASTNode.func (ASTList.cons
        (ASTNode.numCond 0 true CmpOp.opLT (FloatVal.finite (-1)) (some 0) 2
          (ASTNode.output 0 0 [1]) (ASTNode.output 0 0 [2])) ASTList.nil))))
        = ASTNode.main (ASTNode.quant cp (ASTNode.func ch))
      ∧ cp.length = 1
      ∧ (∀ f, (cp.getD f []).Sorted (· < ·))
      ∧ (∀ f q, q ∈ cp.getD f [] ↔
          hasThr f q (ASTNode.main (ASTNode.func (ASTList.cons
            (ASTNode.numCond 0 true CmpOp.opLT (FloatVal.finite (-1)) none (-1)
              (ASTNode.output 0 0 [1]) (ASTNode.output 0 0 [2]))
            ASTList.nil))) = true)
      ∧ allNodes (numCondProp cp)
          (ASTNode.main (ASTNode.quant [[(-1 : Rat)]] (ASTNode.func (ASTList.cons
            (ASTNode.numCond 0 true CmpOp.opLT (FloatVal.finite (-1)) (some 0) 2
              (ASTNode.output 0 0 [1]) (ASTNode.output 0 0 [2])) ASTList.nil)))) :=
  c1_quantize_thresholds 1
    (ASTList.cons
      (ASTNode.numCond 0 true CmpOp.opLT (FloatVal.finite (-1)) none (-1)
        (ASTNode.output 0 0 [1]) (ASTNode.output 0 0 [2])) ASTList.nil)
    (by decide) _ rfl

/-! ## Main-node emission tail (src/compiler/codegen/main_node.cc) -/

/-- The statements `HandleMainNode` pushes after descending into the
child of Main (src/compiler/codegen/main_node.cc, lines 139-168):
`result[offset] /= factor;`, `result[offset] += score;`, and the final
`if (!pred_margin) { postprocess(result); }`. -/
inductive MainTailStmt where
  | divideStmt (offset : Nat) (factor : Int)
  | addStmt (offset : Nat) (score : Rat)
  | postprocessStmt
deriving DecidableEq

/-- The tail of `HandleMainNode`: when `average_factor_` is present, one
division statement per `(target_id, class_id)` with
`offset = target_id * max_num_class + class_id` and divisor
`average_factor[class_id]`; then one addition statement per cell with
addend `base_scores_[class_id]`; then the postprocess guard. The
subscripts `[class_id]` (not `[offset]`) are transcribed from the source. -/
def mainNodeTail (numTarget : Nat) (numClass : List Nat)
    (averageFactor : Option (List Int)) (baseScores : List Rat) : List MainTailStmt :=
  let maxC := maxElem numClass
  (match averageFactor with
   | some af =>
     (List.range numTarget).flatMap (fun targetId =>
       (List.range (numClass.getD targetId 0)).map (fun classId =>
         MainTailStmt.divideStmt (targetId * maxC + classId) (af.getD classId 0)))
   | none => [])
  ++ (List.range numTarget).flatMap (fun targetId =>
       (List.range (numClass.getD targetId 0)).map (fun classId =>
         MainTailStmt.addStmt (targetId * maxC + classId) (baseScores.getD classId 0)))
  ++ [MainTailStmt.postprocessStmt]

/-- C2 is a code bug: `ast.h` documents that each `output[target_id,
class_id]` is divided by `average_factor_[target_id, class_id]` and
incremented by `base_scores_[target_id, class_id]`, and
`ComputeAverageFactor` fills a `num_target * max_num_class` array
accordingly, but the emission indexes both arrays with `[class_id]` only.
At the failing input `num_target = 2`, `num_class = [1, 1]`
(`max_num_class = 1`), `average_factor = [2, 1]`, `base_scores = [1, 3]`,
the statement for cell `(1, 0)` (offset 1) divides by
`average_factor[0] = 2` and adds `base_scores[0] = 1`, whereas the
`(1, 0)` entries are `1` and `3`. -/
theorem c2_main_tail_code_bug :
    mainNodeTail 2 [1, 1] (some [2, 1]) [1, 3]
      = [MainTailStmt.divideStmt 0 2, MainTailStmt.divideStmt 1 2,
         MainTailStmt.addStmt 0 1, MainTailStmt.addStmt 1 1,
         MainTailStmt.postprocessStmt]
    ∧ ([(2 : Int), 1].getD (1 * maxElem [1, 1] + 0) 0 = 1 ∧ (2 : Int) ≠ 1)
    ∧ ([(1 : Rat), 3].getD (1 * maxElem [1, 1] + 0) 0 = 3
        ∧ (1 : Rat) ≠ 3) := by
  refine ⟨by decide, ⟨by decide, by decide⟩, ⟨by decide, by decide⟩⟩

/-! ## NaN handling in dense batches
(src/predictor/predictor.cc `ApplyBatch`, src/annotator.cc
`ComputeBranchLooper<DenseDMatrix>::Loop`) -/

/-- `tl2cgen::detail::math::CheckNAN`. -/
def CheckNAN : FloatVal → Bool
  | FloatVal.nan => true
  | _ => false

/-- The error message of the `TL2CGEN_CHECK(nan_missing)` guard, identical
in the predictor and the annotator. -/
def nanErrMsg : String :=
  "The missing_value argument must be set to NaN if there is any NaN in the matrix."

/-- One element of the dense row loop of `ApplyBatch`
(src/predictor/predictor.cc, lines 96-105): a NaN element requires
`nan_missing`; a value equal to the sentinel (when the sentinel is not
NaN) stays missing; anything else is stored. -/
def predictorFillEntry (nanMissing : Bool) (missingValue x : FloatVal) :
    Except String (Option FloatVal) :=
  if CheckNAN x then
    if nanMissing then Except.ok none else Except.error nanErrMsg
  else if nanMissing = true ∨ x ≠ missingValue then Except.ok (some x)
  else Except.ok none

/-- The per-row loop of the dense `ApplyBatch`. -/
def predictorFillRow (missingValue : FloatVal) :
    List FloatVal → Except String (List (Option FloatVal))
  | [] => Except.ok []
  | x :: rest =>
    match predictorFillEntry (CheckNAN missingValue) missingValue x with
    | Except.error e => Except.error e
    | Except.ok v =>
      match predictorFillRow missingValue rest with
      | Except.error e => Except.error e
      | Except.ok vs => Except.ok (v :: vs)

/-- The row loop of the dense `ApplyBatch` over the whole batch. -/
def predictorApplyBatchDense (missingValue : FloatVal) :
    List (List FloatVal) → Except String (List (List (Option FloatVal)))
  | [] => Except.ok []
  | row :: rest =>
    match predictorFillRow missingValue row with
    | Except.error e => Except.error e
    | Except.ok v =>
      match predictorApplyBatchDense missingValue rest with
      | Except.error e => Except.error e
      | Except.ok vs => Except.ok (v :: vs)

/-- One element of the dense row loop of
`ComputeBranchLooper<DenseDMatrix>::Loop` (src/annotator.cc, lines
104-110); the body is the same check sequence as the predictor loop. -/
def annotatorFillEntry (nanMissing : Bool) (missingValue x : FloatVal) :
    Except String (Option FloatVal) :=
  if CheckNAN x then
    if nanMissing then Except.ok none else Except.error nanErrMsg
  else if nanMissing = true ∨ x ≠ missingValue then Except.ok (some x)
  else Except.ok none

/-- The per-row loop of the annotator dense looper. -/
def annotatorFillRow (missingValue : FloatVal) :
    List FloatVal → Except String (List (Option FloatVal))
  | [] => Except.ok []
  | x :: rest =>
    match annotatorFillEntry (CheckNAN missingValue) missingValue x with
    | Except.error e => Except.error e
    | Except.ok v =>
      match annotatorFillRow missingValue rest with
      | Except.error e => Except.error e
      | Except.ok vs => Except.ok (v :: vs)

/-- The annotator dense looper over the whole batch (every row of the
matrix is processed by exactly one thread of one chunk). -/
def annotatorLoopDense (missingValue : FloatVal) :
    List (List FloatVal) → Except String (List (List (Option FloatVal)))
  | [] => Except.ok []
  | row :: rest =>
    match annotatorFillRow missingValue row with
    | Except.error e => Except.error e
    | Except.ok v =>
      match annotatorLoopDense missingValue rest with
      | Except.error e => Except.error e
      | Except.ok vs => Except.ok (v :: vs)

/-- How a NaN-missing batch treats each element: NaN entries stay
missing, everything else is stored. -/
def missingMap (row : List FloatVal) : List (Option FloatVal) :=
  row.map (fun x => if CheckNAN x then none else some x)

theorem annotatorFillRow_eq (mv : FloatVal) (row : List FloatVal) :
    annotatorFillRow mv row = predictorFillRow mv row := by
  induction row with
  | nil => rfl
  | cons x rest ih =>
    simp only [annotatorFillRow, predictorFillRow, annotatorFillEntry,
      predictorFillEntry, ih]

theorem annotatorLoopDense_eq (mv : FloatVal) (mat : List (List FloatVal)) :
    annotatorLoopDense mv mat = predictorApplyBatchDense mv mat := by
  induction mat with
  | nil => rfl
  | cons row rest ih =>
    simp only [annotatorLoopDense, predictorApplyBatchDense,
      annotatorFillRow_eq, ih]

theorem predictorFillRow_ok_or_msg (mv : FloatVal) (row : List FloatVal) :
    (∃ v, predictorFillRow mv row = Except.ok v)
    ∨ predictorFillRow mv row = Except.error nanErrMsg := by
  induction row with
  | nil => exact Or.inl ⟨[], rfl⟩
  | cons x rest ih =>
    simp only [predictorFillRow, predictorFillEntry]
    split_ifs with h1 h2 h3
    · rcases ih with ⟨v, hv⟩ | hv <;> rw [hv]
      · exact Or.inl ⟨_, rfl⟩
      · exact Or.inr rfl
    · exact Or.inr rfl
    · rcases ih with ⟨v, hv⟩ | hv <;> rw [hv]
      · exact Or.inl ⟨_, rfl⟩
      · exact Or.inr rfl
    · rcases ih with ⟨v, hv⟩ | hv <;> rw [hv]
      · exact Or.inl ⟨_, rfl⟩
      · exact Or.inr rfl

theorem predictorFillRow_nan_error (mv : FloatVal) (row : List FloatVal)
    (hmv : CheckNAN mv = false) (hnan : FloatVal.nan ∈ row) :
    predictorFillRow mv row = Except.error nanErrMsg := by
  induction row with
  | nil => cases hnan
  | cons x rest ih =>
    simp only [predictorFillRow, predictorFillEntry]
    by_cases h1 : CheckNAN x = true
    · rw [if_pos h1, if_neg (by rw [hmv]; exact Bool.false_ne_true)]
    · rw [if_neg h1]
      have hxnan : x ≠ FloatVal.nan := by
        intro h
        rw [h] at h1
        exact h1 rfl
      have hrest : FloatVal.nan ∈ rest := by
        rcases List.mem_cons.mp hnan with h | h
        · exact absurd h.symm hxnan
        · exact h
      rw [ih hrest]
      split_ifs <;> rfl

theorem predictorBatch_nan_error (mv : FloatVal) (mat : List (List FloatVal))
    (hmv : CheckNAN mv = false) (hnan : ∃ row ∈ mat, FloatVal.nan ∈ row) :
    predictorApplyBatchDense mv mat = Except.error nanErrMsg := by
  induction mat with
  | nil => obtain ⟨row, h, -⟩ := hnan; cases h
  | cons r rest ih =>
    obtain ⟨row, hrow, hr⟩ := hnan
    simp only [predictorApplyBatchDense]
    rcases List.mem_cons.mp hrow with rfl | hrow2
    · rw [predictorFillRow_nan_error mv row hmv hr]
    · rcases predictorFillRow_ok_or_msg mv r with ⟨v, hv⟩ | hv <;> rw [hv]
      rw [ih ⟨row, hrow2, hr⟩]

theorem predictorFillRow_nan_missing (row : List FloatVal) :
    predictorFillRow FloatVal.nan row = Except.ok (missingMap row) := by
  induction row with
  | nil => rfl
  | cons x rest ih =>
    simp only [predictorFillRow, predictorFillEntry, ih, missingMap, List.map_cons]
    have hnm : CheckNAN FloatVal.nan = true := rfl
    by_cases h1 : CheckNAN x = true
    · simp [h1, hnm]
    · simp [h1, hnm]

theorem predictorBatch_nan_missing (mat : List (List FloatVal)) :
    predictorApplyBatchDense FloatVal.nan mat = Except.ok (mat.map missingMap) := by
  induction mat with
  | nil => rfl
  | cons r rest ih =>
    simp only [predictorApplyBatchDense, predictorFillRow_nan_missing, ih,
      List.map_cons]

/-- C10: on a dense matrix whose `missing_value` sentinel is not NaN, both
the predictor batch loop and the annotator batch loop fail with the
`"The missing_value argument must be set to NaN ..."` error as soon as
any matrix element is NaN; when the sentinel is itself NaN, both loops
succeed and every NaN element is treated as missing. -/
theorem c10_nan_dense (mat : List (List FloatVal)) (mv : FloatVal) :
    (CheckNAN mv = false → (∃ row ∈ mat, FloatVal.nan ∈ row) →
      predictorApplyBatchDense mv mat = Except.error nanErrMsg
      ∧ annotatorLoopDense mv mat = Except.error nanErrMsg)
    ∧ (mv = FloatVal.nan →
      predictorApplyBatchDense mv mat = Except.ok (mat.map missingMap)
      ∧ annotatorLoopDense mv mat = Except.ok (mat.map missingMap)) := by
  constructor
  · intro hmv hnan
    refine ⟨predictorBatch_nan_error mv mat hmv hnan, ?_⟩
    rw [annotatorLoopDense_eq]
    exact predictorBatch_nan_error mv mat hmv hnan
  · rintro rfl
    refine ⟨predictorBatch_nan_missing mat, ?_⟩
    rw [annotatorLoopDense_eq]
    exact predictorBatch_nan_missing mat

/-- Witness for C10: the one-row matrix `[[NaN]]` with sentinel 0 fails in
both loops, and with sentinel NaN both loops treat the element as
missing. -/
theorem c10_nan_dense_witness :
    (predictorApplyBatchDense (FloatVal.finite 0) [[FloatVal.nan]]
        = Except.error nanErrMsg
      ∧ annotatorLoopDense (FloatVal.finite 0) [[FloatVal.nan]]
        = Except.error nanErrMsg)
    ∧ (predictorApplyBatchDense FloatVal.nan [[FloatVal.nan]]
        = Except.ok [[none]]
      ∧ annotatorLoopDense FloatVal.nan [[FloatVal.nan]]
        = Except.ok [[none]]) := by
  constructor
  · exact (c10_nan_dense [[FloatVal.nan]] (FloatVal.finite 0)).1 (by decide)
      ⟨[FloatVal.nan], by decide, by decide⟩
  · exact (c10_nan_dense [[FloatVal.nan]] FloatVal.nan).2 rfl

/-! ## Branch annotator traversal (src/annotator.cc) -/

/-- `tl2cgen::detail::CompareWithOp`
(include/tl2cgen/detail/operator_comp.h). -/
def CompareWithOp (lhs : Rat) (op : CmpOp) (rhs : Rat) : Bool :=
  match op with
  | CmpOp.opEq => lhs = rhs
  | CmpOp.opLT => lhs < rhs
  | CmpOp.opLE => lhs ≤ rhs
  | CmpOp.opGT => lhs > rhs
  | CmpOp.opGE => lhs ≥ rhs

/-- The split payload of a treelite tree node as read by `Traverse_`. -/
inductive SplitTest where
  | numerical (op : CmpOp) (threshold : Rat)
  | categorical (categoryList : List Nat) (rightChildFlag : Bool)

/-- A treelite decision tree as traversed by the branch annotator; every
node carries its node id (`nid`). -/
inductive AnnTree where
  | leaf (nid : Nat)
  | split (nid : Nat) (splitIndex : Nat) (defaultLeft : Bool) (test : SplitTest)
      (l r : AnnTree)

/-- The branch decision of `Traverse_` (src/annotator.cc, lines 47-59):
numerical tests compare the feature value with the threshold; categorical
tests look the truncated feature value up in the ascending category list
(`std::binary_search` on a sorted list is membership) and invert the
result under `category_list_right_child`. The C cast
`static_cast<std::uint32_t>(fvalue)` truncates; negative values are
undefined behaviour in C and are mapped through `Int.toNat` here. -/
def evalSplit : SplitTest → Rat → Bool
  | SplitTest.numerical op threshold, fvalue => CompareWithOp fvalue op threshold
  | SplitTest.categorical cats rflag, fvalue =>
    let res := cats.contains (Int.toNat ⌊fvalue⌋)
    if rflag then !res else res

/-- The branch taken by `Traverse_` at a split node: the default child
(`default_left ? LeftChild : RightChild`) when the feature is missing
(`data[split_index].missing == -1`), the side selected by the split test
otherwise. `true` means the left child. -/
def routeLeft (test : SplitTest) (dl : Bool) : Option Rat → Bool
  | none => dl
  | some fv => evalSplit test fv

/-- How many times `Traverse_` increments `out_counts[i]` while routing
one row through the tree: the visited node's count is incremented, then
the traversal descends into the child selected by `routeLeft`. -/
def visitCount : AnnTree → (Nat → Option Rat) → Nat → Nat
  | AnnTree.leaf nid, _, i => if nid = i then 1 else 0
  | AnnTree.split nid si dl test l r, row, i =>
    (if nid = i then 1 else 0) +
      (if routeLeft test dl (row si) then visitCount l row i else visitCount r row i)

/-- Rows paired with their row index (the parallel-for loop variable). -/
def indexedRows (rows : List (Nat → Option Rat)) : List (Nat × (Nat → Option Rat)) :=
  (List.range rows.length).zip rows

/-- The slice of `counts_tloc` owned by thread `tid` after all rows are
processed: each row is traversed by the thread it was assigned to, and the
increments land in that thread's private slice. -/
def threadCounts (t : AnnTree) (rows : List (Nat → Option Rat))
    (asgn : Nat → Nat) (tid : Nat) (i : Nat) : Nat :=
  (((indexedRows rows).filter (fun p => decide (asgn p.1 = tid))).map
    (fun p => visitCount t p.2 i)).sum

/-- The reduction loop of `AnnotateImpl` (src/annotator.cc, lines
200-206): the per-thread slices are summed in thread order into the final
counts. -/
def reducedCounts (t : AnnTree) (rows : List (Nat → Option Rat))
    (nthread : Nat) (asgn : Nat → Nat) (i : Nat) : Nat :=
  ((List.range nthread).map (fun tid => threadCounts t rows asgn tid i)).sum

theorem sum_range_single (x : Nat) (k : Nat) :
    ∀ n : Nat, k < n →
      ((List.range n).map (fun tid => if k = tid then x else 0)).sum = x := by
  intro n
  induction n with
  | zero => intro h; omega
  | succ n ih =>
    intro h
    rw [List.range_succ, List.map_append, List.sum_append]
    by_cases hk : k = n
    · subst hk
      have hnot : ∀ tid ∈ List.range k, ¬(k = tid) := by
        intro tid htid
        have := List.mem_range.mp htid
        omega
      have hz : ((List.range k).map (fun tid => if k = tid then x else 0)).sum = 0 := by
        rw [List.map_congr_left (fun tid htid => if_neg (hnot tid htid))]
        simp
      rw [hz]
      simp
    · have hlt : k < n := by omega
      rw [ih hlt]
      simp [hk]

theorem sum_map_add_distrib {α : Type} (l : List α) (f g : α → Nat) :
    (l.map (fun x => f x + g x)).sum = (l.map f).sum + (l.map g).sum := by
  induction l with
  | nil => simp
  | cons x t ih =>
    simp only [List.map_cons, List.sum_cons, ih]
    omega

theorem sum_map_range_zero (n : Nat) :
    ((List.range n).map (fun _ => (0 : Nat))).sum = 0 := by
  induction n with
  | zero => simp
  | succ n ih => rw [List.range_succ, List.map_append, List.sum_append, ih]; simp

theorem sum_threads_filter (g : (Nat → Option Rat) → Nat) (asgn : Nat → Nat) (n : Nat) :
    ∀ ps : List (Nat × (Nat → Option Rat)), (∀ p ∈ ps, asgn p.1 < n) →
      ((List.range n).map (fun tid =>
        ((ps.filter (fun p => decide (asgn p.1 = tid))).map (fun p => g p.2)).sum)).sum
      = (ps.map (fun p => g p.2)).sum := by
  intro ps
  induction ps with
  | nil =>
    intro _
    simp only [List.filter_nil, List.map_nil, List.sum_nil]
    exact sum_map_range_zero n
  | cons p ps ih =>
    intro h
    have hmap : (List.range n).map (fun tid =>
        (((p :: ps).filter (fun q => decide (asgn q.1 = tid))).map (fun q => g q.2)).sum)
        = (List.range n).map (fun tid =>
          (if asgn p.1 = tid then g p.2 else 0)
          + ((ps.filter (fun q => decide (asgn q.1 = tid))).map (fun q => g q.2)).sum) := by
      refine List.map_congr_left ?_
      intro tid _
      rw [List.filter_cons]
      by_cases hp : asgn p.1 = tid
      · rw [if_pos (by simp [hp]), if_pos hp, List.map_cons, List.sum_cons]
      · rw [if_neg (by simp [hp]), if_neg hp, Nat.zero_add]
    rw [hmap, sum_map_add_distrib (List.range n)
        (fun tid => if asgn p.1 = tid then g p.2 else 0)
        (fun tid => ((ps.filter (fun q => decide (asgn q.1 = tid))).map
          (fun q => g q.2)).sum),
      sum_range_single (g p.2) (asgn p.1) n (h p (List.mem_cons_self _ _)),
      ih (fun q hq => h q (List.mem_cons_of_mem _ hq)),
      List.map_cons, List.sum_cons]

theorem reducedCounts_eq_sum (t : AnnTree) (rows : List (Nat → Option Rat))
    (n : Nat) (asgn : Nat → Nat) (h : ∀ k < rows.length, asgn k < n) (i : Nat) :
    reducedCounts t rows n asgn i
      = (rows.map (fun row => visitCount t row i)).sum := by
  unfold reducedCounts threadCounts
  rw [sum_threads_filter (fun row => visitCount t row i) asgn n (indexedRows rows) ?valid]
  case valid =>
    intro p hp
    obtain ⟨h1, -⟩ := List.of_mem_zip hp
    exact h p.1 (List.mem_range.mp h1)
  rw [show (fun p : Nat × (Nat → Option Rat) => visitCount t p.2 i)
      = (fun row => visitCount t row i) ∘ Prod.snd from rfl, ← List.map_map]
  unfold indexedRows
  rw [List.map_snd_zip _ _ (by rw [List.length_range])]

/-- C6: the counts tensor produced by `BranchAnnotator::Annotate` does not
depend on the thread count or on how rows are assigned to threads: two
runs over the same model and matrix, with any two valid thread
assignments, reduce to element-wise equal counts, because each row
contributes its root-to-leaf visit increments to exactly one thread slice
and the reduction sums the slices. -/
theorem c6_annotate_thread_invariance (t : AnnTree)
    (rows : List (Nat → Option Rat)) (n1 n2 : Nat) (a1 a2 : Nat → Nat)
    (h1 : ∀ k < rows.length, a1 k < n1) (h2 : ∀ k < rows.length, a2 k < n2) :
    ∀ i, reducedCounts t rows n1 a1 i = reducedCounts t rows n2 a2 i := by
  intro i
  rw [reducedCounts_eq_sum t rows n1 a1 h1 i, reducedCounts_eq_sum t rows n2 a2 h2 i]

/-- Witness for C6: a single numerical stump annotated over two rows, once
with two threads (rows split between them) and once with one thread. -/
theorem c6_annotate_thread_invariance_witness :
    reducedCounts
        (AnnTree.split 0 0 true (SplitTest.numerical CmpOp.opLT (1/2))
          (AnnTree.leaf 1) (AnnTree.leaf 2))
        [fun _ => some 0, fun _ => some 1] 2 (fun k => k % 2) 0
      = reducedCounts
        (AnnTree.split 0 0 true (SplitTest.numerical CmpOp.opLT (1/2))
          (AnnTree.leaf 1) (AnnTree.leaf 2))
        [fun _ => some 0, fun _ => some 1] 1 (fun _ => 0) 0 :=
  c6_annotate_thread_invariance
    (AnnTree.split 0 0 true (SplitTest.numerical CmpOp.opLT (1/2))
      (AnnTree.leaf 1) (AnnTree.leaf 2))
    [fun _ => some 0, fun _ => some 1] 2 1 (fun k => k % 2) (fun _ => 0)
    (by intro k hk; show k % 2 < 2; omega) (by intro k hk; show 0 < 1; omega) 0

/-- All node ids of a tree, root first. -/
def annNids : AnnTree → List Nat
  | AnnTree.leaf nid => [nid]
  | AnnTree.split nid _ _ _ l r => nid :: (annNids l ++ annNids r)

/-- The node id of the root (`Traverse` starts at node 0 of each treelite
tree, so the root id is 0 in practice). -/
def rootNid : AnnTree → Nat
  | AnnTree.leaf nid => nid
  | AnnTree.split nid _ _ _ _ _ => nid

/-- Subtree occurrence. -/
inductive Occurs : AnnTree → AnnTree → Prop
  | refl (t : AnnTree) : Occurs t t
  | inLeft {s l r : AnnTree} (nid si : Nat) (dl : Bool) (test : SplitTest) :
      Occurs s l → Occurs s (AnnTree.split nid si dl test l r)
  | inRight {s l r : AnnTree} (nid si : Nat) (dl : Bool) (test : SplitTest) :
      Occurs s r → Occurs s (AnnTree.split nid si dl test l r)

theorem rootNid_mem_annNids (t : AnnTree) : rootNid t ∈ annNids t := by
  cases t with
  | leaf nid => simp [rootNid, annNids]
  | split nid si dl test l r => simp [rootNid, annNids]

theorem annNids_subset_of_occurs {s t : AnnTree} (h : Occurs s t) :
    ∀ i ∈ annNids s, i ∈ annNids t := by
  induction h with
  | refl => exact fun i hi => hi
  | inLeft nid si dl test _ ih =>
    intro i hi
    simp only [annNids, List.mem_cons, List.mem_append]
    exact Or.inr (Or.inl (ih i hi))
  | inRight nid si dl test _ ih =>
    intro i hi
    simp only [annNids, List.mem_cons, List.mem_append]
    exact Or.inr (Or.inr (ih i hi))

theorem visitCount_zero_of_not_mem (row : Nat → Option Rat) :
    ∀ (t : AnnTree) (i : Nat), i ∉ annNids t → visitCount t row i = 0 := by
  intro t
  induction t with
  | leaf nid =>
    intro i hi
    simp only [annNids, List.mem_singleton] at hi
    simp only [visitCount]
    rw [if_neg (fun h => hi h.symm)]
  | split nid si dl test l r ihl ihr =>
    intro i hi
    simp only [annNids, List.mem_cons, List.mem_append, not_or] at hi
    obtain ⟨h1, h2, h3⟩ := hi
    simp only [visitCount]
    rw [if_neg (fun h => h1 h.symm)]
    simp only [Nat.zero_add]
    split_ifs
    · exact ihl i h2
    · exact ihr i h3

theorem visitCount_root_one (row : Nat → Option Rat) :
    ∀ t : AnnTree, (annNids t).Nodup → visitCount t row (rootNid t) = 1 := by
  intro t
  induction t with
  | leaf nid => intro _; simp [visitCount, rootNid]
  | split nid si dl test l r ihl ihr =>
    intro hn
    simp only [annNids, List.nodup_cons, List.nodup_append] at hn
    obtain ⟨hnot, hl, hr, hdisj⟩ := hn
    simp only [List.mem_append, not_or] at hnot
    have hzl : visitCount l row nid = 0 := visitCount_zero_of_not_mem row l nid hnot.1
    have hzr : visitCount r row nid = 0 := visitCount_zero_of_not_mem row r nid hnot.2
    simp only [visitCount, rootNid, if_true]
    split_ifs <;> omega

theorem visitCount_flow (row : Nat → Option Rat) :
    ∀ t : AnnTree, (annNids t).Nodup →
      ∀ (s : AnnTree) (nid si : Nat) (dl : Bool) (test : SplitTest) (sl sr : AnnTree),
        Occurs s t → s = AnnTree.split nid si dl test sl sr →
        visitCount t row nid
          = visitCount t row (rootNid sl) + visitCount t row (rootNid sr) := by
  intro t
  induction t with
  | leaf n =>
    intro _ s nid si dl test sl sr hocc hs
    cases hocc
    cases hs
  | split n tsi tdl ttest tl tr ihl ihr =>
    intro hn s nid si dl test sl sr hocc hs
    simp only [annNids, List.nodup_cons, List.nodup_append] at hn
    obtain ⟨hnot, hnl, hnr, hdisj⟩ := hn
    simp only [List.mem_append, not_or] at hnot
    cases hocc with
    | refl =>
      -- the subtree is the whole tree
      injection hs with e1 e2 e3 e4 e5 e6
      rw [← e1, ← e5, ← e6]
      have hztl : visitCount tl row n = 0 :=
        visitCount_zero_of_not_mem row tl n hnot.1
      have hztr : visitCount tr row n = 0 :=
        visitCount_zero_of_not_mem row tr n hnot.2
      have h1l : visitCount tl row (rootNid tl) = 1 := visitCount_root_one row tl hnl
      have h1r : visitCount tr row (rootNid tr) = 1 := visitCount_root_one row tr hnr
      have h0lr : visitCount tl row (rootNid tr) = 0 :=
        visitCount_zero_of_not_mem row tl _
          (fun h => hdisj h (rootNid_mem_annNids tr))
      have h0rl : visitCount tr row (rootNid tl) = 0 :=
        visitCount_zero_of_not_mem row tr _
          (fun h => hdisj (rootNid_mem_annNids tl) h)
      have hne1 : n ≠ rootNid tl := fun h => hnot.1 (h ▸ rootNid_mem_annNids tl)
      have hne2 : n ≠ rootNid tr := fun h => hnot.2 (h ▸ rootNid_mem_annNids tr)
      simp only [visitCount, if_true]
      rw [if_neg hne1, if_neg hne2]
      split_ifs <;> omega
    | inLeft _ _ _ _ hsub =>
      have hsub2 := annNids_subset_of_occurs hsub
      have hnid_in : nid ∈ annNids tl := hsub2 nid (by
        rw [hs]; simp [annNids])
      have hjl_in : rootNid sl ∈ annNids tl := hsub2 _ (by
        rw [hs]
        simp only [annNids, List.mem_cons, List.mem_append]
        exact Or.inr (Or.inl (rootNid_mem_annNids sl)))
      have hjr_in : rootNid sr ∈ annNids tl := hsub2 _ (by
        rw [hs]
        simp only [annNids, List.mem_cons, List.mem_append]
        exact Or.inr (Or.inr (rootNid_mem_annNids sr)))
      have hne0 : n ≠ nid := fun h => hnot.1 (h ▸ hnid_in)
      have hne1 : n ≠ rootNid sl := fun h => hnot.1 (h ▸ hjl_in)
      have hne2 : n ≠ rootNid sr := fun h => hnot.1 (h ▸ hjr_in)
      have hih := ihl hnl s nid si dl test sl sr hsub hs
      have hz0 : visitCount tr row nid = 0 :=
        visitCount_zero_of_not_mem row tr nid (fun h => hdisj hnid_in h)
      have hz1 : visitCount tr row (rootNid sl) = 0 :=
        visitCount_zero_of_not_mem row tr _ (fun h => hdisj hjl_in h)
      have hz2 : visitCount tr row (rootNid sr) = 0 :=
        visitCount_zero_of_not_mem row tr _ (fun h => hdisj hjr_in h)
      simp only [visitCount]
      rw [if_neg hne0, if_neg hne1, if_neg hne2]
      split_ifs <;> omega
    | inRight _ _ _ _ hsub =>
      have hsub2 := annNids_subset_of_occurs hsub
      have hnid_in : nid ∈ annNids tr := hsub2 nid (by
        rw [hs]; simp [annNids])
      have hjl_in : rootNid sl ∈ annNids tr := hsub2 _ (by
        rw [hs]
        simp only [annNids, List.mem_cons, List.mem_append]
        exact Or.inr (Or.inl (rootNid_mem_annNids sl)))
      have hjr_in : rootNid sr ∈ annNids tr := hsub2 _ (by
        rw [hs]
        simp only [annNids, List.mem_cons, List.mem_append]
        exact Or.inr (Or.inr (rootNid_mem_annNids sr)))
      have hne0 : n ≠ nid := fun h => hnot.2 (h ▸ hnid_in)
      have hne1 : n ≠ rootNid sl := fun h => hnot.2 (h ▸ hjl_in)
      have hne2 : n ≠ rootNid sr := fun h => hnot.2 (h ▸ hjr_in)
      have hih := ihr hnr s nid si dl test sl sr hsub hs
      have hz0 : visitCount tl row nid = 0 :=
        visitCount_zero_of_not_mem row tl nid (fun h => hdisj h hnid_in)
      have hz1 : visitCount tl row (rootNid sl) = 0 :=
        visitCount_zero_of_not_mem row tl _ (fun h => hdisj h hjl_in)
      have hz2 : visitCount tl row (rootNid sr) = 0 :=
        visitCount_zero_of_not_mem row tl _ (fun h => hdisj h hjr_in)
      simp only [visitCount]
      rw [if_neg hne0, if_neg hne1, if_neg hne2]
      split_ifs <;> omega

/-- C9: after annotating `num_row` rows, the visit counts of every tree
form a flow: the root count equals `num_row` (every traversal visits the
root exactly once), and the count of every internal node equals the sum
of its two children's counts (every visiting row descends into exactly
one child). Node ids must be distinct within the tree, as they are in a
treelite tree. -/
theorem c9_annotate_flow (t : AnnTree) (rows : List (Nat → Option Rat))
    (n : Nat) (asgn : Nat → Nat) (hn : (annNids t).Nodup)
    (ha : ∀ k < rows.length, asgn k < n) :
    reducedCounts t rows n asgn (rootNid t) = rows.length
    ∧ ∀ (s : AnnTree) (nid si : Nat) (dl : Bool) (test : SplitTest) (sl sr : AnnTree),
        Occurs s t → s = AnnTree.split nid si dl test sl sr →
        reducedCounts t rows n asgn nid
          = reducedCounts t rows n asgn (rootNid sl)
            + reducedCounts t rows n asgn (rootNid sr) := by
  constructor
  · rw [reducedCounts_eq_sum t rows n asgn ha,
      sum_map_ones rows _ (fun row _ => visitCount_root_one row t hn)]
  · intro s nid si dl test sl sr hocc hs
    rw [reducedCounts_eq_sum t rows n asgn ha, reducedCounts_eq_sum t rows n asgn ha,
      reducedCounts_eq_sum t rows n asgn ha,
      ← sum_map_add_distrib rows (fun row => visitCount t row (rootNid sl))
        (fun row => visitCount t row (rootNid sr))]
    refine congrArg List.sum (List.map_congr_left ?_)
    intro row _
    exact visitCount_flow row t hn s nid si dl test sl sr hocc hs

/-- The stump and rows used to witness C9. -/
def c9Tree : AnnTree :=
  AnnTree.split 0 0 true (SplitTest.numerical CmpOp.opLT 1)
    (AnnTree.leaf 1) (AnnTree.leaf 2)

/-- Two concrete rows (feature 0 is 0 in the first and 5 in the second). -/
def c9Rows : List (Nat → Option Rat) := [fun _ => some 0, fun _ => some 5]

/-- Witness for C9: a stump with node ids 0, 1, 2 annotated over two rows
in one thread: the root count is 2 and it splits between the children. -/
theorem c9_annotate_flow_witness :
    reducedCounts c9Tree c9Rows 1 (fun _ => 0) (rootNid c9Tree) = c9Rows.length
    ∧ ∀ (s : AnnTree) (nid si : Nat) (dl : Bool) (test : SplitTest) (sl sr : AnnTree),
        Occurs s c9Tree → s = AnnTree.split nid si dl test sl sr →
        reducedCounts c9Tree c9Rows 1 (fun _ => 0) nid
          = reducedCounts c9Tree c9Rows 1 (fun _ => 0) (rootNid sl)
            + reducedCounts c9Tree c9Rows 1 (fun _ => 0) (rootNid sr) :=
  c9_annotate_flow c9Tree c9Rows 1 (fun _ => 0)
    (by decide) (by intro k hk; show 0 < 1; omega)

/-! ## The emitted quantize() function
(src/compiler/codegen/quantizer_node.cc) -/

/-- `th_begin[fid]`: the prefix sum of per-feature threshold counts
(`HandleQuantizerNode`, the `array_th_begin` block). -/
def thBegin (tl : List (List Rat)) (fid : Nat) : Nat :=
  ((tl.take fid).map List.length).sum

/-- `total_num_threshold`: the total count of (distinct) thresholds. -/
def totalNumThreshold (tl : List (List Rat)) : Nat :=
  (tl.map List.length).sum

/-- `threshold[offset + i]`: the flattened ascending per-feature threshold
arrays of `quantize.c`, read through the pointer
`array = &threshold[th_begin[fid]]`. -/
def arrOf (tl : List (List Rat)) (fid : Nat) (i : Nat) : Rat :=
  tl.flatten.getD (thBegin tl fid + i) 0

/-- The `while (low + 1 < high)` loop of the emitted `quantize` function:
returns `mid * 2` on an exact hit, or the final `(low, high)` pair. -/
def quantizeLoop (arr : Nat → Rat) (val : Rat) (low high : Nat) :
    Sum Nat (Nat × Nat) :=
  if low + 1 < high then
    if val = arr ((low + high) / 2) then Sum.inl (((low + high) / 2) * 2)
    else if val < arr ((low + high) / 2) then quantizeLoop arr val low ((low + high) / 2)
    else quantizeLoop arr val ((low + high) / 2) high
  else Sum.inr (low, high)
termination_by high - low
decreasing_by
  · omega
  · omega

/-- The emitted `quantize(val, fid)` of `quantize.c`
(`quantize_function_template` in src/compiler/codegen/quantizer_node.cc):
return −10 when the feature has no thresholds at all
(`offset == total_num_threshold`) or `val < array[0]`; otherwise run the
binary-search loop and post-process: `low*2` on an exact match at `low`,
`len*2` when `high == len`, else `low*2 + 1`. -/
def quantize (tl : List (List Rat)) (val : Rat) (fid : Nat) : Int :=
  let offset := thBegin tl fid
  let len := (tl.getD fid []).length
  let arr := arrOf tl fid
  if offset = totalNumThreshold tl ∨ val < arr 0 then -10
  else
    match quantizeLoop arr val 0 len with
    | Sum.inl r => (r : Int)
    | Sum.inr (low, high) =>
      if arr low = val then (low : Int) * 2
      else if high = len then (len : Int) * 2
      else (low : Int) * 2 + 1

theorem flatten_getD (tl : List (List Rat)) :
    ∀ (fid i : Nat), i < (tl.getD fid []).length →
      tl.flatten.getD (thBegin tl fid + i) 0 = (tl.getD fid []).getD i 0 := by
  induction tl with
  | nil =>
    intro fid i h
    simp at h
  | cons hd rest ih =>
    intro fid i h
    cases fid with
    | zero =>
      simp only [thBegin, List.take_zero, List.map_nil, List.sum_nil, Nat.zero_add,
        List.flatten_cons, List.getD_cons_zero]
      simp only [List.getD_cons_zero] at h
      exact List.getD_append hd rest.flatten 0 i h
    | succ f2 =>
      have hbegin : thBegin (hd :: rest) (f2 + 1) = hd.length + thBegin rest f2 := by
        simp only [thBegin, List.take_succ_cons, List.map_cons, List.sum_cons]
      rw [hbegin, List.flatten_cons,
        List.getD_append_right hd rest.flatten 0 _ (by omega)]
      have harith : hd.length + thBegin rest f2 + i - hd.length = thBegin rest f2 + i := by
        omega
      rw [harith]
      simp only [List.getD_cons_succ] at h ⊢
      exact ih f2 i h

theorem thBegin_add_le (tl : List (List Rat)) :
    ∀ fid, thBegin tl fid + (tl.getD fid []).length ≤ totalNumThreshold tl := by
  induction tl with
  | nil => intro fid; simp [thBegin, totalNumThreshold]
  | cons hd rest ih =>
    intro fid
    cases fid with
    | zero =>
      simp only [thBegin, List.take_zero, List.map_nil, List.sum_nil, Nat.zero_add,
        List.getD_cons_zero, totalNumThreshold, List.map_cons, List.sum_cons]
      omega
    | succ f2 =>
      have hbegin : thBegin (hd :: rest) (f2 + 1) = hd.length + thBegin rest f2 := by
        simp only [thBegin, List.take_succ_cons, List.map_cons, List.sum_cons]
      simp only [hbegin, List.getD_cons_succ, totalNumThreshold, List.map_cons,
        List.sum_cons]
      have := ih f2
      simp only [totalNumThreshold] at this
      omega

theorem sorted_getD_lt (l : List Rat) (hs : l.Sorted (· < ·)) (i j : Nat)
    (hij : i < j) (hj : j < l.length) : l.getD i 0 < l.getD j 0 := by
  rw [List.getD_eq_getElem l 0 (by omega), List.getD_eq_getElem l 0 hj]
  exact List.pairwise_iff_getElem.mp hs i j (by omega) hj hij

theorem sorted_getD_le (l : List Rat) (hs : l.Sorted (· < ·)) (i j : Nat)
    (hij : i ≤ j) (hj : j < l.length) : l.getD i 0 ≤ l.getD j 0 := by
  rcases Nat.eq_or_lt_of_le hij with rfl | h
  · exact le_refl _
  · exact le_of_lt (sorted_getD_lt l hs i j h hj)

theorem quantizeLoop_spec (arr : Nat → Rat) (val : Rat) (len : Nat)
    (_hsorted : ∀ i j, i < j → j < len → arr i < arr j) :
    ∀ (d low high : Nat), high - low ≤ d → low < high → high ≤ len →
      arr low ≤ val → (high = len ∨ val < arr high) →
      (∀ m, quantizeLoop arr val low high = Sum.inl m →
        ∃ k, m = k * 2 ∧ k < len ∧ arr k = val)
      ∧ (∀ lo hi, quantizeLoop arr val low high = Sum.inr (lo, hi) →
          hi = lo + 1 ∧ lo < len ∧ arr lo ≤ val
          ∧ (hi = len ∨ val < arr hi) ∧ hi ≤ len) := by
  intro d
  induction d with
  | zero =>
    intro low high hd hlh _ _ _
    omega
  | succ d ih =>
    intro low high hd hlh hhl harr hhigh
    rw [quantizeLoop]
    split_ifs with h1 h2 h3
    · -- exact hit at mid
      constructor
      · intro m hm
        injection hm with hm
        exact ⟨(low + high) / 2, hm.symm, by omega, h2.symm⟩
      · intro lo hi h
        cases h
    · -- go left: high := mid
      have hmid1 : low < (low + high) / 2 := by omega
      have hmid2 : (low + high) / 2 < high := by omega
      exact ih low ((low + high) / 2) (by omega) hmid1 (by omega) harr (Or.inr h3)
    · -- go right: low := mid
      have hmid1 : low < (low + high) / 2 := by omega
      have hmid2 : (low + high) / 2 < high := by omega
      exact ih ((low + high) / 2) high (by omega) hmid2 hhl (not_lt.mp h3) hhigh
    · -- loop exit
      constructor
      · intro m hm
        cases hm
      · intro lo hi h
        injection h with h12
        injection h12 with h1 h3
        subst h1
        subst h3
        exact ⟨by omega, by omega, harr, hhigh, by omega⟩

theorem arrOf_eq (tl : List (List Rat)) (fid i : Nat)
    (hi : i < (tl.getD fid []).length) :
    arrOf tl fid i = (tl.getD fid []).getD i 0 :=
  flatten_getD tl fid i hi

theorem quantize_largest_low (tl : List (List Rat)) (val : Rat) (fid : Nat)
    (hs : (tl.getD fid []).Sorted (· < ·))
    (hne : tl.getD fid [] ≠ [])
    (hv : (tl.getD fid []).getD 0 0 ≤ val) :
    ∃ low, low < (tl.getD fid []).length
      ∧ (tl.getD fid []).getD low 0 ≤ val
      ∧ (∀ j, j < (tl.getD fid []).length → (tl.getD fid []).getD j 0 ≤ val → j ≤ low)
      ∧ quantize tl val fid =
          (if (tl.getD fid []).getD low 0 = val then (low : Int) * 2
           else if low + 1 = (tl.getD fid []).length
           then ((tl.getD fid []).length : Int) * 2
           else (low : Int) * 2 + 1) := by
  have hlen : 0 < (tl.getD fid []).length := List.length_pos.mpr hne
  have hsa : ∀ i j, i < j → j < (tl.getD fid []).length →
      arrOf tl fid i < arrOf tl fid j := by
    intro i j hij hj
    rw [arrOf_eq tl fid i (by omega), arrOf_eq tl fid j hj]
    exact sorted_getD_lt _ hs i j hij hj
  have hguard : ¬(thBegin tl fid = totalNumThreshold tl ∨ val < arrOf tl fid 0) := by
    have h1 := thBegin_add_le tl fid
    rw [not_or]
    refine ⟨by omega, ?_⟩
    rw [arrOf_eq tl fid 0 hlen]
    exact not_lt.mpr hv
  have hspec := quantizeLoop_spec (arrOf tl fid) val (tl.getD fid []).length hsa
      (tl.getD fid []).length 0 (tl.getD fid []).length (by omega) hlen (le_refl _)
      (by rw [arrOf_eq tl fid 0 hlen]; exact hv) (Or.inl rfl)
  cases hq : quantizeLoop (arrOf tl fid) val 0 (tl.getD fid []).length with
  | inl m =>
    obtain ⟨k, hm, hk, hak⟩ := hspec.1 m hq
    have hlkv : (tl.getD fid []).getD k 0 = val := by
      rw [← arrOf_eq tl fid k hk]
      exact hak
    refine ⟨k, hk, le_of_eq hlkv, ?_, ?_⟩
    · intro j hj hjv
      by_contra hgt
      push_neg at hgt
      have hlt := sorted_getD_lt _ hs k j hgt hj
      rw [hlkv] at hlt
      exact absurd (lt_of_lt_of_le hlt hjv) (lt_irrefl val)
    · rw [if_pos hlkv]
      have hqz : quantize tl val fid = ((m : Nat) : Int) := by
        simp only [quantize]
        rw [if_neg hguard, hq]
      rw [hqz, hm]
      push_cast
      ring
  | inr p =>
    obtain ⟨lo, hi⟩ := p
    obtain ⟨hhi, hlo, halov, hor, hhile⟩ := hspec.2 lo hi hq
    have hlolev : (tl.getD fid []).getD lo 0 ≤ val := by
      rw [← arrOf_eq tl fid lo hlo]
      exact halov
    refine ⟨lo, hlo, hlolev, ?_, ?_⟩
    · intro j hj hjv
      by_contra hgt
      push_neg at hgt
      rcases hor with hend | hlt
      · omega
      · have hhiL : hi < (tl.getD fid []).length := by omega
        rw [arrOf_eq tl fid hi hhiL] at hlt
        have h2 : (tl.getD fid []).getD hi 0 ≤ (tl.getD fid []).getD j 0 :=
          sorted_getD_le _ hs hi j (by omega) hj
        exact absurd (lt_of_lt_of_le (lt_of_lt_of_le hlt h2) hjv) (lt_irrefl val)
    · have hqz : quantize tl val fid =
          (if arrOf tl fid lo = val then (lo : Int) * 2
           else if hi = (tl.getD fid []).length
           then (((tl.getD fid []).length : Nat) : Int) * 2
           else (lo : Int) * 2 + 1) := by
        simp only [quantize]
        rw [if_neg hguard, hq]
      rw [hqz, arrOf_eq tl fid lo hlo, hhi]

/-- C3: the `quantize(val, fid)` function emitted into quantize.c
(quantize_function_template, src/compiler/codegen/quantizer_node.cc) computes,
for every feature `fid` with a sorted non-empty `threshold_list[fid]` of
length `len`: −10 when `val < threshold_list[fid][0]`; `2k` when
`val = threshold_list[fid][k]`; `2k+1` when
`threshold_list[fid][k] < val < threshold_list[fid][k+1]`; `2*len` when
`val > threshold_list[fid][len-1]`; and whenever `array[0] ≤ val` its binary
search finds the largest index `low` with `array[low] ≤ val` and
post-processes it exactly as the emitted tail does. -/
theorem c3_quantize_function (tl : List (List Rat)) (val : Rat) (fid : Nat)
    (hs : (tl.getD fid []).Sorted (· < ·))
    (hne : tl.getD fid [] ≠ []) :
    (val < (tl.getD fid []).getD 0 0 → quantize tl val fid = -10)
    ∧ (∀ k, k < (tl.getD fid []).length → val = (tl.getD fid []).getD k 0 →
        quantize tl val fid = 2 * (k : Int))
    ∧ (∀ k, k + 1 < (tl.getD fid []).length →
        (tl.getD fid []).getD k 0 < val → val < (tl.getD fid []).getD (k + 1) 0 →
        quantize tl val fid = 2 * (k : Int) + 1)
    ∧ ((tl.getD fid []).getD ((tl.getD fid []).length - 1) 0 < val →
        quantize tl val fid = 2 * ((tl.getD fid []).length : Int))
    ∧ ((tl.getD fid []).getD 0 0 ≤ val →
        ∃ low, low < (tl.getD fid []).length
          ∧ (tl.getD fid []).getD low 0 ≤ val
          ∧ (∀ j, j < (tl.getD fid []).length →
              (tl.getD fid []).getD j 0 ≤ val → j ≤ low)
          ∧ quantize tl val fid =
              (if (tl.getD fid []).getD low 0 = val then (low : Int) * 2
               else if low + 1 = (tl.getD fid []).length
               then (((tl.getD fid []).length : Nat) : Int) * 2
               else (low : Int) * 2 + 1)) := by
  have hlen : 0 < (tl.getD fid []).length := List.length_pos.mpr hne
  refine ⟨?_, ?_, ?_, ?_, quantize_largest_low tl val fid hs hne⟩
  · intro hv
    simp only [quantize]
    rw [if_pos]
    right
    rw [arrOf_eq tl fid 0 hlen]
    exact hv
  · intro k hk hv
    obtain ⟨low, hlow, hlov, hmax, hres⟩ := quantize_largest_low tl val fid hs hne
      (by rw [hv]; exact sorted_getD_le _ hs 0 k (by omega) hk)
    have hkl : k ≤ low := hmax k hk (le_of_eq hv.symm)
    have hlk : low ≤ k := by
      by_contra hgt
      push_neg at hgt
      have := sorted_getD_lt _ hs k low hgt hlow
      rw [← hv] at this
      exact absurd (lt_of_lt_of_le this hlov) (lt_irrefl val)
    have hle : low = k := le_antisymm hlk hkl
    subst hle
    rw [hres, if_pos hv.symm]
    ring
  · intro k hk1 h1 h2
    obtain ⟨low, hlow, hlov, hmax, hres⟩ := quantize_largest_low tl val fid hs hne
      (le_of_lt (lt_of_le_of_lt (sorted_getD_le _ hs 0 k (by omega) (by omega)) h1))
    have hkl : k ≤ low := hmax k (by omega) (le_of_lt h1)
    have hlk : low ≤ k := by
      by_contra hgt
      push_neg at hgt
      have hstep : (tl.getD fid []).getD (k + 1) 0 ≤ (tl.getD fid []).getD low 0 :=
        sorted_getD_le _ hs (k + 1) low (by omega) hlow
      exact absurd (lt_of_lt_of_le (lt_of_lt_of_le h2 hstep) hlov) (lt_irrefl val)
    have hle : low = k := le_antisymm hlk hkl
    subst hle
    rw [hres, if_neg (ne_of_lt h1)]
    rw [if_neg (by omega)]
    ring
  · intro hv
    obtain ⟨low, hlow, hlov, hmax, hres⟩ := quantize_largest_low tl val fid hs hne
      (le_of_lt (lt_of_le_of_lt (sorted_getD_le _ hs 0 ((tl.getD fid []).length - 1)
        (by omega) (by omega)) hv))
    have hkl : (tl.getD fid []).length - 1 ≤ low := hmax _ (by omega) (le_of_lt hv)
    have hle : low = (tl.getD fid []).length - 1 := by omega
    subst hle
    rw [hres, if_neg (ne_of_lt hv)]
    rw [if_pos (by omega)]
    ring

theorem c3_quantize_function_witness :
    quantize [[(1 : Rat), 3, 7]] 4 0 = 3 := by
  have h := (c3_quantize_function [[(1 : Rat), 3, 7]] 4 0 (by decide) (by decide)).2.2.1
    1 (by decide) (by decide) (by decide)
  simpa using h
